import Mathlib

/-!
# Versioning_FS: an in-memory file table with snapshots, rollback and diff

A shallow embedding of `versioning_fs.c`.

Modelling conventions.

* A `char` is a `Byte` (`Fin 256`).  A C string is the list of its bytes before
  the terminating NUL (`CString`); `strcmp(a, b) == 0` is equality of lists.
* `file_t.name` (a `char[256]` whose last byte is never written and is zero in
  static storage) is represented by the C string it holds.
* `file_t.content` (a `char[MAX_CONTENT_SIZE]`) is a function from the index to
  the byte; only the indices below `MAX_CONTENT_SIZE` belong to the array.
* The arrays `files[MAX_FILES]` and `snapshots[MAX_SNAPSHOTS]` are functions
  from the slot index; slots at and above `num_files` keep whatever was last
  stored there, exactly as in the C arrays.
* `size_t` and `off_t` are 64 bit wide, `int` is 32 bit wide.  Arithmetic that
  the C code performs in `size_t` is written with an explicit `% 2 ^ 64`.
* A `memcpy` whose range leaves the `content` array, or that reads more bytes
  than the source buffer holds, has no defined result: the operation returns
  `none`.
* `strcmp` and `printf("%s")` on a `content` array read up to the first NUL
  and do not stop at the end of the array. Such a read stays inside the
  enclosing `snapshot_t`, whose layout the struct declarations fix on the
  64-bit little-endian target: `content` is followed by the eight bytes of
  `size`, these by the next slot, and the last slot by `num_files` and zeroed
  padding. `content_str` follows the scan through these bytes, and
  `content_terminated` says when it stays inside the array.
* The global `fs_state` is passed explicitly; an operation returns its C return
  value together with the new state.  A path is `/` followed by the name, and
  `path + 1` is `path.drop 1`.
-/

namespace VersioningFS

/-! ## Data model -/

abbrev Byte := Fin 256

abbrev CString := List Byte

def MAX_FILES : Nat := 100

def MAX_SNAPSHOTS : Nat := 100

def MAX_CONTENT_SIZE : Nat := 65536

/-- The value of `sizeof(file->name)`. -/
def NAME_SIZE : Nat := 256

def ENOENT : Int := 2

def EEXIST : Int := 17

def EINVAL : Int := 22

def EFBIG : Int := 27

def ENOSPC : Int := 28

/-- The byte of the path separator, the character '/'. -/
def SLASH : Byte := 47

structure file_t where
  name : CString
  content : Nat → Byte
  size : Nat

structure snapshot_t where
  files : Nat → file_t
  num_files : Nat

structure fs_state where
  files : Nat → file_t
  num_files : Nat
  snapshots : Nat → snapshot_t
  num_snapshots : Nat

/-- A zero-initialised `file_t` of static storage. -/
def zero_file : file_t := { name := [], content := fun _ => 0, size := 0 }

/-- The state at the start of `main`: static storage is zeroed, and both counters are set to 0. -/
def fs_init : fs_state :=
  { files := fun _ => zero_file
    num_files := 0
    snapshots := fun _ => { files := fun _ => zero_file, num_files := 0 }
    num_snapshots := 0 }

/-! ## Machine integers and memory primitives -/

/-- Conversion of a signed 64-bit `off_t` to `size_t`. -/
def to_size_t (x : Int) : Nat := (x % 2 ^ 64).toNat

/-- Conversion of a `size_t` to the `int` a FUSE callback returns. -/
def to_int (n : Nat) : Int :=
  if n % 2 ^ 32 < 2 ^ 31 then ((n % 2 ^ 32 : Nat) : Int) else ((n % 2 ^ 32 : Nat) : Int) - 2 ^ 32

/-- Assignment `a[i] = v` to one slot of an array. -/
def update {α : Type} (a : Nat → α) (i : Nat) (v : α) : Nat → α :=
  fun j => if j = i then v else a j

/-- The call `strncpy(dst, src, n)` into a name array whose byte `n` is NUL: the string held afterwards. -/
def strncpy (src : CString) (n : Nat) : CString := src.take n

/-- The call `memcpy(content + offset, buf, size)`: defined when the destination range lies in the
content array and the source buffer holds `size` bytes. -/
def memcpy_in (content : Nat → Byte) (offset : Int) (buf : List Byte) (size : Nat) :
    Option (Nat → Byte) :=
  if 0 ≤ offset ∧ offset + (size : Int) ≤ (MAX_CONTENT_SIZE : Int) ∧ size ≤ buf.length then
    some (fun k =>
      if offset.toNat ≤ k ∧ k < offset.toNat + size then buf.getD (k - offset.toNat) 0
      else content k)
  else none

/-- The call `memcpy(buf, content + offset, size)`: the bytes stored into `buf[0 .. size)`, defined
when the source range lies in the content array. -/
def memcpy_out (content : Nat → Byte) (offset : Int) (size : Nat) : Option (List Byte) :=
  if 0 ≤ offset ∧ offset + (size : Int) ≤ (MAX_CONTENT_SIZE : Int) then
    some ((List.range size).map (fun k => content (offset.toNat + k)))
  else none

/-- The loop of a C-string scan over `mem[i ..]`, at most `fuel` bytes: `acc` holds the bytes read so
far, last first. -/
def c_str_loop (mem : Nat → Byte) (i : Nat) (acc : List Byte) : Nat → CString
  | 0 => acc.reverse
  | fuel + 1 => if mem i = 0 then acc.reverse else c_str_loop mem (i + 1) (mem i :: acc) fuel

/-- The C string that starts at `mem[i]`, reading at most `fuel` bytes. -/
def c_str_from (mem : Nat → Byte) (i : Nat) (fuel : Nat) : CString := c_str_loop mem i [] fuel

/-- Whether `mem[i ..]` holds a NUL among its next `fuel` bytes. -/
def nul_within (mem : Nat → Byte) (i : Nat) : Nat → Bool
  | 0 => false
  | fuel + 1 => if mem i = 0 then true else nul_within mem (i + 1) fuel

/-- The first `k` bytes of the little-endian representation of `n`. -/
def le_bytes (n : Nat) : Nat → List Byte
  | 0 => []
  | k + 1 => Fin.ofNat (n % 256) :: le_bytes (n / 256) k

/-- The bytes of a list before its first NUL. -/
def until_nul (l : List Byte) : CString := l.takeWhile (fun b => decide (b ≠ 0))

/-- The bytes that lie behind the content array of slot `i` of a `snapshot_t`, up to the first
NUL. A `file_t` is `name[256]`, `content[65536]`, `size` without padding, so the eight bytes of
`size` come first; if none of them is NUL the name of the next slot follows, and behind the last
slot the four bytes of `num_files` and the zeroed padding of the `snapshot_t`. -/
def after_content (s : snapshot_t) (i : Nat) : CString :=
  if (le_bytes (s.files i).size 8).all (fun b => decide (b ≠ 0)) then
    le_bytes (s.files i).size 8 ++
      (if i + 1 < MAX_FILES then (s.files (i + 1)).name else until_nul (le_bytes s.num_files 4))
  else until_nul (le_bytes (s.files i).size 8)

/-- The content of slot `i` of a snapshot read as a C string, as `strcmp` and `printf("%s")` do in
`visualize_diff`: the bytes from `content[0]` to the first NUL. When the content array holds no
NUL the scan does not stop at its end but runs on into the bytes behind it. -/
def content_str (s : snapshot_t) (i : Nat) : CString :=
  if nul_within (s.files i).content 0 MAX_CONTENT_SIZE then
    c_str_from (s.files i).content 0 MAX_CONTENT_SIZE
  else c_str_from (s.files i).content 0 MAX_CONTENT_SIZE ++ after_content s i

/-- The content array of slot `i` holds a NUL, so that reading it as a C string stays inside the
array. -/
def content_terminated (s : snapshot_t) (i : Nat) : Prop :=
  nul_within (s.files i).content 0 MAX_CONTENT_SIZE = true

/-! ## Operations -/

/-- The index of the first of the `num_files` live slots whose name is `name`. -/
def find_file (st : fs_state) (name : CString) : Option Nat :=
  (List.range st.num_files).find? (fun i => decide ((st.files i).name = name))

def take_snapshot (st : fs_state) : fs_state :=
  if st.num_snapshots ≥ MAX_SNAPSHOTS then st
  else
    { st with
      snapshots := update st.snapshots st.num_snapshots
        { files := st.files, num_files := st.num_files }
      num_snapshots := st.num_snapshots + 1 }

def rollback (st : fs_state) (snapshot_id : Int) : Int × fs_state :=
  if snapshot_id < 0 ∨ snapshot_id ≥ (st.num_snapshots : Int) then (-EINVAL, st)
  else
    let snap := st.snapshots snapshot_id.toNat
    (0, { st with files := snap.files, num_files := snap.num_files })

/-- One block of three lines printed by `visualize_diff`. -/
structure diff_entry where
  name : CString
  before : CString
  after : CString
deriving DecidableEq

/-- What `visualize_diff` prints: the line for invalid ids, or the header and the entries. -/
inductive diff_output where
  | invalid
  | report (entries : List diff_entry)
deriving DecidableEq

/-- The body of the loop of `visualize_diff` at slot `i`. -/
def diff_slot (s1 s2 : snapshot_t) (i : Nat) : Option diff_entry :=
  if (s1.files i).name ≠ (s2.files i).name ∨ content_str s1 i ≠ content_str s2 i then
    some { name := (s1.files i).name
           before := content_str s1 i
           after := content_str s2 i }
  else none

def visualize_diff (st : fs_state) (snap1 snap2 : Int) : diff_output :=
  if snap1 < 0 ∨ snap1 ≥ (st.num_snapshots : Int) ∨
      snap2 < 0 ∨ snap2 ≥ (st.num_snapshots : Int) then .invalid
  else
    .report ((List.range MAX_FILES).filterMap
      (diff_slot (st.snapshots snap1.toNat) (st.snapshots snap2.toNat)))

/-- The fields of `struct stat` that `vfs_getattr` sets. -/
structure stat where
  st_mode : Nat
  st_nlink : Nat
  st_size : Nat
deriving DecidableEq

def S_IFDIR : Nat := 0o040000

def S_IFREG : Nat := 0o100000

def vfs_getattr (st : fs_state) (path : CString) : Int × stat :=
  if path = [SLASH] then (0, { st_mode := S_IFDIR ||| 0o755, st_nlink := 2, st_size := 0 })
  else
    match find_file st (path.drop 1) with
    | none => (-ENOENT, { st_mode := 0, st_nlink := 0, st_size := 0 })
    | some i => (0, { st_mode := S_IFREG ||| 0o644, st_nlink := 1, st_size := (st.files i).size })

/-- The return value and the names handed to `filler`, in order. -/
def vfs_readdir (st : fs_state) (path : CString) : Int × List CString :=
  if path ≠ [SLASH] then (-ENOENT, [])
  else (0, [[46], [46, 46]] ++ (List.range st.num_files).map (fun i => (st.files i).name))

def vfs_mknod (st : fs_state) (path : CString) : Int × fs_state :=
  if st.num_files ≥ MAX_FILES then (-ENOSPC, st)
  else
    match find_file st (path.drop 1) with
    | some _ => (-EEXIST, st)
    | none =>
      let file : file_t :=
        { name := strncpy (path.drop 1) (NAME_SIZE - 1), size := 0, content := fun _ => 0 }
      (0, { st with files := update st.files st.num_files file, num_files := st.num_files + 1 })

def vfs_write (st : fs_state) (path : CString) (buf : List Byte) (size : Nat) (offset : Int) :
    Option (Int × fs_state) :=
  match find_file st (path.drop 1) with
  | none => some (-ENOENT, st)
  | some i =>
    if (to_size_t offset + size) % 2 ^ 64 > MAX_CONTENT_SIZE then some (-EFBIG, st)
    else
      match memcpy_in (st.files i).content offset buf size with
      | none => none
      | some content =>
        let file : file_t :=
          { name := (st.files i).name, content := content
            size := (to_size_t offset + size) % 2 ^ 64 }
        some (to_int size, { st with files := update st.files i file })

/-- The return value and the bytes copied to the front of `buf`. -/
def vfs_read (st : fs_state) (path : CString) (size : Nat) (offset : Int) :
    Option (Int × List Byte) :=
  match find_file st (path.drop 1) with
  | none => some (-ENOENT, [])
  | some i =>
    let file := st.files i
    if to_size_t offset ≥ file.size then some (0, [])
    else
      let size :=
        if (to_size_t offset + size) % 2 ^ 64 > file.size then file.size - to_size_t offset
        else size
      match memcpy_out file.content offset size with
      | none => none
      | some bytes => some (to_int size, bytes)

/-- The inner loop of `vfs_unlink`: for `j` from `i` to `num_files - 2`, `files[j] = files[j + 1]`. -/
def shift_down (files : Nat → file_t) (i num_files : Nat) : Nat → file_t :=
  (List.range' i (num_files - 1 - i)).foldl (fun fs j => update fs j (fs (j + 1))) files

def vfs_unlink (st : fs_state) (path : CString) : Int × fs_state :=
  match (List.range st.num_files).find? (fun i => decide ((st.files i).name = path.drop 1)) with
  | some i =>
    (0, { st with files := shift_down st.files i st.num_files, num_files := st.num_files - 1 })
  | none => (-ENOENT, st)

/-- A file named `n` is live: one of the first `num_files` slots holds the name `n`. -/
def live (st : fs_state) (n : CString) : Prop :=
  ∃ i, i < st.num_files ∧ (st.files i).name = n

/-- The sizes of all file slots, live or stored in a snapshot, are at most MAX_CONTENT_SIZE. -/
def sizes_ok (st : fs_state) : Prop :=
  (∀ i, (st.files i).size ≤ MAX_CONTENT_SIZE) ∧
    ∀ s i, ((st.snapshots s).files i).size ≤ MAX_CONTENT_SIZE

/-- The bounds of a state: the two counters are within their arrays, every file slot, live or
stored in a snapshot, has a size within the content array, and every snapshot slot has a file count
within the file array. -/
def bounds_ok (st : fs_state) : Prop :=
  st.num_files ≤ MAX_FILES ∧ st.num_snapshots ≤ MAX_SNAPSHOTS ∧ sizes_ok st ∧
    ∀ s, (st.snapshots s).num_files ≤ MAX_FILES

/-! ## Sequences of calls -/

/-- A call of one of the five operations that change `fs_state`. -/
inductive call where
  | mknod (path : CString)
  | write (path : CString) (buf : List Byte) (size : Nat) (offset : Int)
  | unlink (path : CString)
  | snapshot
  | rollback (snapshot_id : Int)

/-- The state after one call; `none` when the call has no defined result. -/
def step (st : fs_state) : call → Option fs_state
  | .mknod path => some (vfs_mknod st path).2
  | .write path buf size offset => (vfs_write st path buf size offset).map Prod.snd
  | .unlink path => some (vfs_unlink st path).2
  | .snapshot => some (take_snapshot st)
  | .rollback snapshot_id => some (rollback st snapshot_id).2

/-- The state after a sequence of calls, in order. -/
def run (st : fs_state) : List call → Option fs_state
  | [] => some st
  | c :: cs => (step st c).bind (fun st1 => run st1 cs)

/-- The arguments of a call are ones a FUSE dispatcher delivers: a write passes a buffer of `size`
bytes and an offset that is not negative, both in the range of their 64-bit types. -/
def call.wf : call → Prop
  | .write _ buf size offset =>
    0 ≤ offset ∧ offset < 2 ^ 63 ∧ size = buf.length ∧ size < 2 ^ 63
  | _ => True

/-! ## The name-keyed diff of the specification

These definitions follow the words of the specification, not the source; they are what
`visualize_diff` is compared with. -/

/-- The names of the live files of a snapshot, in slot order. -/
def spec_live_names (s : snapshot_t) : List CString :=
  (List.range s.num_files).map (fun i => (s.files i).name)

/-- The content bytes `[0, size)` of the first live file of the snapshot named `n`. -/
def spec_lookup (s : snapshot_t) (n : CString) : Option (List Byte) :=
  ((List.range s.num_files).find? (fun i => decide ((s.files i).name = n))).map
    (fun i => (List.range (s.files i).size).map (s.files i).content)

inductive diff_status where
  | Added
  | Removed
  | Modified
deriving DecidableEq

/-- The status the specification gives the name `n`: Added (live only in the second snapshot),
Removed (live only in the first), Modified (live in both, content bytes differ), none otherwise. -/
def spec_status (s1 s2 : snapshot_t) (n : CString) : Option diff_status :=
  match spec_lookup s1 n, spec_lookup s2 n with
  | none, some _ => some .Added
  | some _, none => some .Removed
  | some c1, some c2 => if c1 ≠ c2 then some .Modified else none
  | none, none => none

/-- The names the specification wants an entry for: each name of the union of the live names that
has a status, once. -/
def spec_changed_names (s1 s2 : snapshot_t) : List CString :=
  ((spec_live_names s1 ++ spec_live_names s2).dedup).filter
    (fun n => (spec_status s1 s2 n).isSome)

/-- The report of `visualize_diff` is name-keyed: it has exactly one entry per name that has a
status. -/
def name_keyed (st : fs_state) (snap1 snap2 : Nat) : Prop :=
  ∃ es, visualize_diff st (snap1 : Int) (snap2 : Int) = .report es ∧
    (es.map diff_entry.name).Perm
      (spec_changed_names (st.snapshots snap1) (st.snapshots snap2))

/-- Slot `i` differs between two snapshots, as the loop of `visualize_diff` tests it. -/
def slot_differs (s1 s2 : snapshot_t) (i : Nat) : Prop :=
  (s1.files i).name ≠ (s2.files i).name ∨ content_str s1 i ≠ content_str s2 i

instance (s1 s2 : snapshot_t) (i : Nat) : Decidable (slot_differs s1 s2 i) := by
  unfold slot_differs
  infer_instance

/-- The live file sequence of a snapshot: name, size and content bytes `[0, size)` of each of the
first `num_files` slots. -/
def spec_live_files (s : snapshot_t) : List (CString × Nat × List Byte) :=
  (List.range s.num_files).map
    (fun i => ((s.files i).name, (s.files i).size,
      (List.range (s.files i).size).map (s.files i).content))

/-- No two of the first `n` slots of a file array hold the same stored name. -/
def unique_in (files : Nat → file_t) (n : Nat) : Prop :=
  ∀ i j, i < n → j < n → (files i).name = (files j).name → i = j

/-- No two live files of the state have the same stored name. -/
def names_unique (st : fs_state) : Prop := unique_in st.files st.num_files

/-- The live names are unique in the state and in every snapshot slot. -/
def unique_ok (st : fs_state) : Prop :=
  names_unique st ∧ ∀ s, unique_in (st.snapshots s).files (st.snapshots s).num_files

/-- The name of a created file fits the name field: at most 255 bytes. -/
def call.short : call → Prop
  | .mknod path => (path.drop 1).length ≤ 255
  | _ => True

/-- The content bytes `[0, size)` of the file in slot `i` of a snapshot. -/
def spec_bytes (s : snapshot_t) (i : Nat) : List Byte :=
  (List.range (s.files i).size).map (s.files i).content

/-! ## Concrete states used as witnesses -/

/-- A state with one live file named "a". -/
def one_file : fs_state := (vfs_mknod fs_init [SLASH, 97]).2

/-- The state with the file "a" and one snapshot of it (id 0). -/
def one_snapshot : fs_state := take_snapshot one_file

/-- A sequence of calls of every kind, some of which fail: write "hi" to "a", create "b", create
"b" again (fails), delete "a", delete "zz" (fails), write 70000 bytes from offset 0 (fails), take a
snapshot, roll back to snapshot 0, roll back to snapshot 7 (fails). -/
def mixed_calls : List call :=
  [.write [SLASH, 97] [104, 105] 2 0, .mknod [SLASH, 98], .mknod [SLASH, 98],
    .unlink [SLASH, 97], .unlink [SLASH, 122, 122],
    .write [SLASH, 98] (List.replicate 70000 0) 70000 0,
    .snapshot, .rollback 0, .rollback 7]

/-- The calls that build the two snapshots of the diff example: snapshot 0 holds a:"x", b:"y";
then "b" is deleted and "c" created with "z"; snapshot 1 holds a:"x", c:"z". -/
def diff_calls : List call :=
  [.mknod [SLASH, 97], .mknod [SLASH, 98], .write [SLASH, 97] [120] 1 0,
    .write [SLASH, 98] [121] 1 0, .snapshot,
    .unlink [SLASH, 98], .mknod [SLASH, 99], .write [SLASH, 99] [122] 1 0, .snapshot]

/-- The state after `diff_calls` from the initial state. -/
def diff_example : fs_state := (run fs_init diff_calls).getD fs_init

/-- The calls `vfs_mknod("/n")` for the names of a list, in order: the return values and the final
state. -/
def mknod_all (st : fs_state) : List CString → List Int × fs_state
  | [] => ([], st)
  | n :: ns =>
    ((vfs_mknod st (SLASH :: n)).1 :: (mknod_all (vfs_mknod st (SLASH :: n)).2 ns).1,
      (mknod_all (vfs_mknod st (SLASH :: n)).2 ns).2)

/-- One hundred distinct short names: "a", "aa", "aaa", ... -/
def short_names : List CString := (List.range 100).map (fun i => List.replicate (i + 1) 97)

/-- One hundred distinct names, the first of 256 bytes ("a" 255 times, then "b"), the second its
first 255 bytes, the others of two bytes ("b" and a byte from 100 to 197). -/
def long_names : List CString :=
  (List.replicate 255 97 ++ [98]) :: List.replicate 255 97 ::
    (List.range 98).map (fun i => [98, Fin.ofNat (i + 100)])

/-- A name of 256 bytes: "a" 255 times, then "b". -/
def long_name_b : CString := List.replicate 255 97 ++ [98]

/-- A name of 256 bytes: "a" 255 times, then "c". -/
def long_name_c : CString := List.replicate 255 97 ++ [99]

/-- The state after `vfs_mknod` of the two long names from the initial state. -/
def two_long_names : fs_state :=
  (vfs_mknod (vfs_mknod fs_init (SLASH :: long_name_b)).2 (SLASH :: long_name_c)).2

/-- The state after `vfs_mknod("/")` from the initial state. -/
def root_created : fs_state := (vfs_mknod fs_init [SLASH]).2

/-- Create "a" and write "x", take snapshot 0, create "b" and delete it, take snapshot 1. -/
def stale_calls : List call :=
  [.mknod [SLASH, 97], .write [SLASH, 97] [120] 1 0, .snapshot,
    .mknod [SLASH, 98], .unlink [SLASH, 98], .snapshot]

/-- The state after `stale_calls` from the initial state. -/
def stale_example : fs_state := (run fs_init stale_calls).getD fs_init

/-- The scenario of the specification: create "a" and "b", write "Hello" to "a" and "World" to
"b", take snapshot 0, write "Bye" (3 bytes) to "a" at offset 0, take snapshot 1. -/
def hello_calls : List call :=
  [.mknod [SLASH, 97], .mknod [SLASH, 98],
    .write [SLASH, 97] [72, 101, 108, 108, 111] 5 0,
    .write [SLASH, 98] [87, 111, 114, 108, 100] 5 0, .snapshot,
    .write [SLASH, 97] [66, 121, 101] 3 0, .snapshot]

/-- The state after `hello_calls` from the initial state. -/
def hello_example : fs_state := (run fs_init hello_calls).getD fs_init

/-- Create "a" and "b", write "x" to "a" and "y" to "b", take snapshot 0, write "z" to "a", take
snapshot 1: both snapshots hold the same names in the same slots. -/
def modify_calls : List call :=
  [.mknod [SLASH, 97], .mknod [SLASH, 98], .write [SLASH, 97] [120] 1 0,
    .write [SLASH, 98] [121] 1 0, .snapshot, .write [SLASH, 97] [122] 1 0, .snapshot]

/-- The state after `modify_calls` from the initial state. -/
def modify_example : fs_state := (run fs_init modify_calls).getD fs_init

/-! ## Lookup and integer conversion lemmas -/

theorem find_range_none (p : Nat → Bool) (n : Nat) :
    (List.range n).find? p = none ↔ ∀ j, j < n → p j = false := by
  simp [List.find?_eq_none]

theorem find_range_some (p : Nat → Bool) (n : Nat) :
    ∀ i, (List.range n).find? p = some i ↔ i < n ∧ p i = true ∧ ∀ j, j < i → p j = false := by
  induction n with
  | zero => simp
  | succ n ih =>
    intro i
    rw [List.range_succ, List.find?_append]
    cases h : (List.range n).find? p with
    | some k =>
      obtain ⟨hk1, hk2, hk3⟩ := (ih k).1 h
      simp only [Option.or, Option.some.injEq]
      constructor
      · rintro rfl
        exact ⟨by omega, hk2, hk3⟩
      · rintro ⟨_, hi2, hi3⟩
        rcases Nat.lt_trichotomy i k with hlt | heq | hgt
        · rw [hk3 i hlt] at hi2; cases hi2
        · exact heq.symm
        · rw [hi3 k hgt] at hk2; cases hk2
    | none =>
      have hn := (find_range_none p n).1 h
      simp only [Option.or]
      by_cases hp : p n = true
      · simp only [List.find?_cons, hp, Option.some.injEq]
        constructor
        · rintro rfl
          exact ⟨by omega, hp, hn⟩
        · rintro ⟨hi1, hi2, hi3⟩
          rcases Nat.lt_trichotomy i n with hlt | heq | hgt
          · rw [hn i hlt] at hi2; cases hi2
          · exact heq.symm
          · omega
      · have hp2 : p n = false := by simpa using hp
        simp only [List.find?_cons, hp2, List.find?_nil]
        constructor
        · intro h0; cases h0
        · rintro ⟨hi1, hi2, hi3⟩
          have : i < n ∨ i = n := by omega
          rcases this with hlt | heq
          · rw [hn i hlt] at hi2; cases hi2
          · subst heq; rw [hp2] at hi2; cases hi2

theorem find_file_some (st : fs_state) (name : CString) (i : Nat) :
    find_file st name = some i ↔
      i < st.num_files ∧ (st.files i).name = name ∧
        ∀ j, j < i → (st.files j).name ≠ name := by
  unfold find_file
  rw [find_range_some]
  simp

theorem find_file_none (st : fs_state) (name : CString) :
    find_file st name = none ↔ ∀ j, j < st.num_files → (st.files j).name ≠ name := by
  unfold find_file
  rw [find_range_none]
  simp

theorem find_file_none_iff_not_live (st : fs_state) (name : CString) :
    find_file st name = none ↔ ¬ live st name := by
  rw [find_file_none]
  unfold live
  constructor
  · rintro h ⟨i, hi, hn⟩
    exact h i hi hn
  · intro h j hj hn
    exact h ⟨j, hj, hn⟩

theorem live_iff_find_file (st : fs_state) (name : CString) :
    live st name ↔ ∃ i, find_file st name = some i := by
  constructor
  · intro h
    cases hf : find_file st name with
    | none => exact absurd h ((find_file_none_iff_not_live st name).1 hf)
    | some i => exact ⟨i, rfl⟩
  · rintro ⟨i, hi⟩
    obtain ⟨h1, h2, _⟩ := (find_file_some st name i).1 hi
    exact ⟨i, h1, h2⟩

theorem find_file_congr (st st2 : fs_state) (name : CString)
    (hnum : st2.num_files = st.num_files)
    (hnames : ∀ j, j < st.num_files → (st2.files j).name = (st.files j).name) :
    find_file st2 name = find_file st name := by
  cases hf : find_file st name with
  | none =>
    rw [find_file_none] at hf ⊢
    intro j hj
    rw [hnum] at hj
    rw [hnames j hj]
    exact hf j hj
  | some i =>
    rw [find_file_some] at hf ⊢
    obtain ⟨h1, h2, h3⟩ := hf
    refine ⟨by omega, by rw [hnames i h1]; exact h2, ?_⟩
    intro j hj
    rw [hnames j (by omega)]
    exact h3 j hj

theorem to_size_t_of_nonneg (x : Int) (h0 : 0 ≤ x) (h1 : x < 2 ^ 63) :
    to_size_t x = x.toNat := by
  unfold to_size_t
  rw [Int.emod_eq_of_lt h0 (by omega)]

theorem to_int_of_small (n : Nat) (h : n < 2 ^ 31) : to_int n = (n : Int) := by
  unfold to_int
  have : n % 2 ^ 32 = n := Nat.mod_eq_of_lt (by omega)
  rw [this, if_pos (by omega)]


/-! ## Write and read inside the content array -/

theorem drop_one_path (n : CString) : (SLASH :: n).drop 1 = n := rfl

/-- A write whose range lies in the content array succeeds and stores the bytes. -/
theorem vfs_write_in_range (st : fs_state) (path : CString) (b : List Byte) (offset : Int)
    (i : Nat) (hfind : find_file st (path.drop 1) = some i)
    (h0 : 0 ≤ offset) (hle : offset + (b.length : Int) ≤ (MAX_CONTENT_SIZE : Int)) :
    vfs_write st path b b.length offset =
      some ((b.length : Int),
        { st with
          files := update st.files i
            { name := (st.files i).name
              content := fun k =>
                if offset.toNat ≤ k ∧ k < offset.toNat + b.length then
                  b.getD (k - offset.toNat) 0
                else (st.files i).content k
              size := offset.toNat + b.length } }) := by
  have hM : MAX_CONTENT_SIZE = 65536 := rfl
  rw [hM] at hle
  have hoff : to_size_t offset = offset.toNat := to_size_t_of_nonneg offset h0 (by omega)
  have hsum : (offset.toNat + b.length) % 2 ^ 64 = offset.toNat + b.length :=
    Nat.mod_eq_of_lt (by omega)
  have hguard : ¬ (offset.toNat + b.length > MAX_CONTENT_SIZE) := by rw [hM]; omega
  have hint : to_int b.length = (b.length : Int) := to_int_of_small _ (by omega)
  have hcpy : (0 ≤ offset ∧ offset + (b.length : Int) ≤ (MAX_CONTENT_SIZE : Int) ∧
      b.length ≤ b.length) := ⟨h0, by rw [hM]; exact hle, le_refl _⟩
  simp only [vfs_write, hfind, hoff, hsum, hguard, if_false, memcpy_in, hcpy, and_self, if_true,
    hint]

/-- A read below the file size returns the clipped slice of the content. -/
theorem vfs_read_in_range (st : fs_state) (path : CString) (len : Nat) (offset : Int)
    (i : Nat) (hfind : find_file st (path.drop 1) = some i)
    (hsize : (st.files i).size ≤ MAX_CONTENT_SIZE)
    (h0 : 0 ≤ offset) (hlt : offset < ((st.files i).size : Int)) (hlen : len < 2 ^ 63) :
    vfs_read st path len offset =
      some (((min len ((st.files i).size - offset.toNat) : Nat) : Int),
        (List.range (min len ((st.files i).size - offset.toNat))).map
          (fun k => (st.files i).content (offset.toNat + k))) := by
  have hM : MAX_CONTENT_SIZE = 65536 := rfl
  rw [hM] at hsize
  have hoff : to_size_t offset = offset.toNat := to_size_t_of_nonneg offset h0 (by omega)
  have hsum : (offset.toNat + len) % 2 ^ 64 = offset.toNat + len :=
    Nat.mod_eq_of_lt (by omega)
  have hnot : ¬ (offset.toNat ≥ (st.files i).size) := by omega
  simp only [vfs_read, hfind, hoff, hsum, hnot, if_false]
  by_cases hclip : offset.toNat + len > (st.files i).size
  · have hmin : min len ((st.files i).size - offset.toNat) = (st.files i).size - offset.toNat := by
      omega
    have hcpy : 0 ≤ offset ∧
        offset + (((st.files i).size - offset.toNat : Nat) : Int) ≤ (MAX_CONTENT_SIZE : Int) := by
      rw [hM]; omega
    have hint : to_int ((st.files i).size - offset.toNat) =
        (((st.files i).size - offset.toNat : Nat) : Int) := to_int_of_small _ (by omega)
    simp only [hclip, if_true, memcpy_out, hcpy, and_self, hmin, hint]
  · have hmin : min len ((st.files i).size - offset.toNat) = len := by omega
    have hcpy : 0 ≤ offset ∧ offset + (len : Int) ≤ (MAX_CONTENT_SIZE : Int) := by
      rw [hM]; omega
    have hint : to_int len = (len : Int) := to_int_of_small _ (by omega)
    simp only [hclip, if_false, memcpy_out, hcpy, and_self, if_true, hmin, hint]

/-- A read at or beyond the file size returns 0 and copies nothing. -/
theorem vfs_read_at_end (st : fs_state) (path : CString) (len : Nat) (offset : Int)
    (i : Nat) (hfind : find_file st (path.drop 1) = some i)
    (h0 : 0 ≤ offset) (h1 : offset < 2 ^ 63) (hge : ((st.files i).size : Int) ≤ offset) :
    vfs_read st path len offset = some (0, []) := by
  have hoff : to_size_t offset = offset.toNat := to_size_t_of_nonneg offset h0 h1
  have hyes : offset.toNat ≥ (st.files i).size := by omega
  simp only [vfs_read, hfind, hoff, hyes, if_true]

theorem map_range_getD (b : List Byte) :
    (List.range b.length).map (fun k => b.getD k 0) = b := by
  apply List.ext_getElem
  · simp
  · intro k h1 h2
    simp [List.getD_eq_getElem?_getD, List.getElem?_eq_getElem h2]


/-! ## Snapshots are not touched by later calls -/

theorem vfs_mknod_snapshots (st : fs_state) (path : CString) :
    (vfs_mknod st path).2.snapshots = st.snapshots ∧
      (vfs_mknod st path).2.num_snapshots = st.num_snapshots := by
  unfold vfs_mknod
  split
  · exact ⟨rfl, rfl⟩
  · split <;> exact ⟨rfl, rfl⟩

theorem vfs_write_snapshots (st : fs_state) (path : CString) (buf : List Byte) (size : Nat)
    (offset : Int) (r : Int) (st1 : fs_state)
    (h : vfs_write st path buf size offset = some (r, st1)) :
    st1.snapshots = st.snapshots ∧ st1.num_snapshots = st.num_snapshots := by
  unfold vfs_write at h
  split at h
  · cases h; exact ⟨rfl, rfl⟩
  · split at h
    · cases h; exact ⟨rfl, rfl⟩
    · split at h
      · cases h
      · cases h; exact ⟨rfl, rfl⟩

theorem vfs_unlink_snapshots (st : fs_state) (path : CString) :
    (vfs_unlink st path).2.snapshots = st.snapshots ∧
      (vfs_unlink st path).2.num_snapshots = st.num_snapshots := by
  unfold vfs_unlink
  split <;> exact ⟨rfl, rfl⟩

theorem rollback_snapshots (st : fs_state) (snapshot_id : Int) :
    (rollback st snapshot_id).2.snapshots = st.snapshots ∧
      (rollback st snapshot_id).2.num_snapshots = st.num_snapshots := by
  unfold rollback
  split <;> exact ⟨rfl, rfl⟩

theorem take_snapshot_snapshots (st : fs_state) :
    (∀ s, s < st.num_snapshots → (take_snapshot st).snapshots s = st.snapshots s) ∧
      st.num_snapshots ≤ (take_snapshot st).num_snapshots := by
  unfold take_snapshot
  split
  · exact ⟨fun _ _ => rfl, le_refl _⟩
  · refine ⟨fun s hs => ?_, Nat.le_succ _⟩
    have hne : s ≠ st.num_snapshots := by omega
    simp [update, hne]

theorem step_snapshots (st : fs_state) (c : call) (st1 : fs_state) (h : step st c = some st1) :
    (∀ s, s < st.num_snapshots → st1.snapshots s = st.snapshots s) ∧
      st.num_snapshots ≤ st1.num_snapshots := by
  cases c with
  | mknod path =>
    simp only [step, Option.some.injEq] at h
    subst h
    obtain ⟨h1, h2⟩ := vfs_mknod_snapshots st path
    exact ⟨fun s _ => by rw [h1], by rw [h2]⟩
  | write path buf size offset =>
    simp only [step, Option.map_eq_some', Prod.exists, exists_eq_right] at h
    obtain ⟨r, hr⟩ := h
    obtain ⟨h1, h2⟩ := vfs_write_snapshots st path buf size offset r st1 hr
    exact ⟨fun s _ => by rw [h1], by rw [h2]⟩
  | unlink path =>
    simp only [step, Option.some.injEq] at h
    subst h
    obtain ⟨h1, h2⟩ := vfs_unlink_snapshots st path
    exact ⟨fun s _ => by rw [h1], by rw [h2]⟩
  | snapshot =>
    simp only [step, Option.some.injEq] at h
    subst h
    exact take_snapshot_snapshots st
  | rollback snapshot_id =>
    simp only [step, Option.some.injEq] at h
    subst h
    obtain ⟨h1, h2⟩ := rollback_snapshots st snapshot_id
    exact ⟨fun s _ => by rw [h1], by rw [h2]⟩

theorem run_snapshots (calls : List call) :
    ∀ (st st1 : fs_state), run st calls = some st1 →
      (∀ s, s < st.num_snapshots → st1.snapshots s = st.snapshots s) ∧
        st.num_snapshots ≤ st1.num_snapshots := by
  induction calls with
  | nil =>
    intro st st1 h
    simp only [run, Option.some.injEq] at h
    subst h
    exact ⟨fun _ _ => rfl, le_refl _⟩
  | cons c cs ih =>
    intro st st1 h
    simp only [run, Option.bind_eq_some] at h
    obtain ⟨stm, hstep, hrest⟩ := h
    obtain ⟨a1, a2⟩ := step_snapshots st c stm hstep
    obtain ⟨b1, b2⟩ := ih stm st1 hrest
    refine ⟨fun s hs => ?_, le_trans a2 b2⟩
    rw [b1 s (by omega), a1 s hs]

/-- A write with well-formed arguments has a defined result in every state. -/
theorem vfs_write_defined (st : fs_state) (path : CString) (buf : List Byte) (size : Nat)
    (offset : Int) (hwf : (call.write path buf size offset).wf) :
    ∃ r st1, vfs_write st path buf size offset = some (r, st1) := by
  obtain ⟨h0, h1, hsz, h2⟩ := hwf
  have hM : MAX_CONTENT_SIZE = 65536 := rfl
  have hoff : to_size_t offset = offset.toNat := to_size_t_of_nonneg offset h0 h1
  have hsum : (offset.toNat + size) % 2 ^ 64 = offset.toNat + size :=
    Nat.mod_eq_of_lt (by omega)
  unfold vfs_write
  split
  · exact ⟨_, _, rfl⟩
  · rw [hoff, hsum]
    split
    · exact ⟨_, _, rfl⟩
    · rename_i hguard
      have hcpy : 0 ≤ offset ∧ offset + (size : Int) ≤ (MAX_CONTENT_SIZE : Int) ∧
          size ≤ buf.length := by
        rw [hM] at hguard ⊢
        refine ⟨h0, by omega, by omega⟩
      simp only [memcpy_in, hcpy, and_self, if_true]
      exact ⟨_, _, rfl⟩

theorem step_defined (st : fs_state) (c : call) (hwf : c.wf) : ∃ st1, step st c = some st1 := by
  cases c with
  | write path buf size offset =>
    obtain ⟨r, st1, h⟩ := vfs_write_defined st path buf size offset hwf
    exact ⟨st1, by simp [step, h]⟩
  | mknod path => exact ⟨_, rfl⟩
  | unlink path => exact ⟨_, rfl⟩
  | snapshot => exact ⟨_, rfl⟩
  | rollback snapshot_id => exact ⟨_, rfl⟩

theorem run_defined (calls : List call) :
    ∀ (st : fs_state), (∀ c, c ∈ calls → c.wf) → ∃ st1, run st calls = some st1 := by
  induction calls with
  | nil => intro st _; exact ⟨st, rfl⟩
  | cons c cs ih =>
    intro st hwf
    obtain ⟨stm, hstep⟩ := step_defined st c (hwf c (List.mem_cons_self _ _))
    obtain ⟨st1, hrest⟩ := ih stm (fun d hd => hwf d (List.mem_cons_of_mem _ hd))
    exact ⟨st1, by simp [run, hstep, hrest]⟩

/-! ## Creating files -/

theorem vfs_mknod_ok (st : fs_state) (n : CString) (hroom : st.num_files < MAX_FILES)
    (hnew : ¬ live st n) :
    vfs_mknod st (SLASH :: n) =
      (0, { st with
            files := update st.files st.num_files
              { name := n.take 255, size := 0, content := fun _ => 0 }
            num_files := st.num_files + 1 }) := by
  have hnot : ¬ (st.num_files ≥ MAX_FILES) := by omega
  have hfind : find_file st n = none := (find_file_none_iff_not_live st n).2 hnew
  simp only [vfs_mknod, hnot, if_false, drop_one_path, hfind, strncpy, NAME_SIZE]

theorem vfs_mknod_full (st : fs_state) (path : CString) (hfull : st.num_files ≥ MAX_FILES) :
    vfs_mknod st path = (-ENOSPC, st) := by
  simp only [vfs_mknod, hfull, if_true]

theorem mknod_all_spec (names : List CString) :
    ∀ st : fs_state, st.num_files + names.length ≤ MAX_FILES → names.Nodup →
      (∀ n, n ∈ names → n.length ≤ 255) → (∀ n, n ∈ names → ¬ live st n) →
      (mknod_all st names).1 = List.replicate names.length 0 ∧
      (mknod_all st names).2.num_files = st.num_files + names.length ∧
      (∀ i, i < st.num_files → (mknod_all st names).2.files i = st.files i) ∧
      (∀ j (h : j < names.length), (mknod_all st names).2.files (st.num_files + j) =
        { name := names[j], size := 0, content := fun _ => 0 }) ∧
      (mknod_all st names).2.snapshots = st.snapshots ∧
      (mknod_all st names).2.num_snapshots = st.num_snapshots := by
  induction names with
  | nil =>
    intro st _ _ _ _
    exact ⟨rfl, rfl, fun _ _ => rfl, fun j h => absurd h (Nat.not_lt_zero j), rfl, rfl⟩
  | cons n ns ih =>
    intro st hroom hnodup hshort hnew
    simp only [List.length_cons] at hroom
    have hn_short : n.length ≤ 255 := hshort n (List.mem_cons_self _ _)
    have htake : n.take 255 = n := List.take_of_length_le hn_short
    have hok := vfs_mknod_ok st n (by omega) (hnew n (List.mem_cons_self _ _))
    rw [htake] at hok
    obtain ⟨hn_notin, hns_nodup⟩ := List.nodup_cons.1 hnodup
    have hnew1 : ∀ m, m ∈ ns → ¬ live (vfs_mknod st (SLASH :: n)).2 m := by
      intro m hm
      rw [hok]
      rintro ⟨i, hi, hname⟩
      simp only at hi hname
      by_cases hi2 : i = st.num_files
      · subst hi2
        simp only [update, if_true] at hname
        exact hn_notin (hname ▸ hm)
      · simp only [update, hi2, if_false] at hname
        exact hnew m (List.mem_cons_of_mem _ hm) ⟨i, by omega, hname⟩
    have hnum1 : (vfs_mknod st (SLASH :: n)).2.num_files = st.num_files + 1 := by rw [hok]
    obtain ⟨r1, r2, r3, r4, r5, r6⟩ := ih (vfs_mknod st (SLASH :: n)).2
      (by rw [hnum1]; omega) hns_nodup
      (fun m hm => hshort m (List.mem_cons_of_mem _ hm)) hnew1
    have hret : (vfs_mknod st (SLASH :: n)).1 = 0 := by rw [hok]
    refine ⟨?_, ?_, ?_, ?_, ?_, ?_⟩
    · simp only [mknod_all, r1, hret, List.length_cons, List.replicate_succ]
    · simp only [mknod_all, r2, hnum1, List.length_cons]
      omega
    · intro i hi
      simp only [mknod_all]
      rw [r3 i (by rw [hnum1]; omega), hok]
      have hne : i ≠ st.num_files := by omega
      simp only [update, hne, if_false]
    · intro j hj
      simp only [mknod_all]
      cases j with
      | zero =>
        rw [Nat.add_zero, r3 st.num_files (by rw [hnum1]; omega), hok]
        simp only [update, if_true, List.getElem_cons_zero]
      | succ j =>
        have hj2 : j < ns.length := by simpa using hj
        have h4 := r4 j hj2
        rw [hnum1] at h4
        have hidx : st.num_files + (j + 1) = st.num_files + 1 + j := by omega
        rw [hidx, h4]
        simp only [List.getElem_cons_succ]
    · simp only [mknod_all, r5]
      rw [hok]
    · simp only [mknod_all, r6]
      rw [hok]


theorem not_live_of_no_files (st : fs_state) (h : st.num_files = 0) (n : CString) :
    ¬ live st n := by
  rintro ⟨i, hi, _⟩
  omega

theorem short_names_length : short_names.length = MAX_FILES := by
  simp [short_names, MAX_FILES]

theorem short_names_nodup : short_names.Nodup := by
  unfold short_names
  refine List.Nodup.map_on ?_ (List.nodup_range 100)
  intro a _ b _ hab
  have := congrArg List.length hab
  simpa using this

theorem short_names_short : ∀ n, n ∈ short_names → n.length ≤ 255 := by
  intro n hn
  simp only [short_names, List.mem_map, List.mem_range] at hn
  obtain ⟨i, hi, rfl⟩ := hn
  rw [List.length_replicate]
  omega


/-! ## The shifting loop of unlink -/

theorem foldl_shift (m : Nat) :
    ∀ (i : Nat) (files : Nat → file_t) (j : Nat),
      (List.range' i m).foldl (fun fs j => update fs j (fs (j + 1))) files j =
        if i ≤ j ∧ j < i + m then files (j + 1) else files j := by
  induction m with
  | zero =>
    intro i files j
    have : ¬ (i ≤ j ∧ j < i + 0) := by omega
    simp only [List.range'_zero, List.foldl_nil, this, if_false]
  | succ m ih =>
    intro i files j
    rw [List.range'_succ, List.foldl_cons, ih (i + 1) (update files i (files (i + 1))) j]
    by_cases hj : j = i
    · subst hj
      have c1 : ¬ (j + 1 ≤ j ∧ j < j + 1 + m) := by omega
      have c2 : j ≤ j ∧ j < j + (m + 1) := by omega
      simp only [c1, if_false, c2, and_self, if_true, update]
    · by_cases hin : i + 1 ≤ j ∧ j < i + 1 + m
      · have c2 : i ≤ j ∧ j < i + (m + 1) := by omega
        have hne : j + 1 ≠ i := by omega
        simp only [hin, and_self, if_true, c2, update, hne, if_false]
      · have c2 : ¬ (i ≤ j ∧ j < i + (m + 1)) := by omega
        simp only [hin, if_false, c2, update, hj]

theorem shift_down_spec (files : Nat → file_t) (i num_files : Nat) (hi : i < num_files)
    (j : Nat) :
    shift_down files i num_files j =
      if i ≤ j ∧ j + 1 < num_files then files (j + 1) else files j := by
  unfold shift_down
  rw [foldl_shift]
  by_cases h : i ≤ j ∧ j + 1 < num_files
  · have h2 : i ≤ j ∧ j < i + (num_files - 1 - i) := by omega
    simp only [h, h2, and_self, if_true]
  · have h2 : ¬ (i ≤ j ∧ j < i + (num_files - 1 - i)) := by omega
    simp only [h, h2, if_false]

/-! ## File sizes stay within the content array -/

theorem vfs_mknod_sizes (st : fs_state) (path : CString)
    (h : ∀ i, (st.files i).size ≤ MAX_CONTENT_SIZE) :
    ∀ i, ((vfs_mknod st path).2.files i).size ≤ MAX_CONTENT_SIZE := by
  intro i
  unfold vfs_mknod
  split
  · exact h i
  · split
    · exact h i
    · show (update st.files st.num_files _ i).size ≤ MAX_CONTENT_SIZE
      unfold update
      split
      · exact Nat.zero_le _
      · exact h i

theorem vfs_write_sizes (st : fs_state) (path : CString) (buf : List Byte) (size : Nat)
    (offset : Int) (r : Int) (st1 : fs_state)
    (hw : vfs_write st path buf size offset = some (r, st1))
    (h : ∀ i, (st.files i).size ≤ MAX_CONTENT_SIZE) :
    ∀ i, (st1.files i).size ≤ MAX_CONTENT_SIZE := by
  intro i
  unfold vfs_write at hw
  split at hw
  · cases hw; exact h i
  · split at hw
    · cases hw; exact h i
    · rename_i hguard
      split at hw
      · cases hw
      · cases hw
        show (update st.files _ _ i).size ≤ MAX_CONTENT_SIZE
        unfold update
        split
        · exact Nat.le_of_not_lt hguard
        · exact h i

theorem vfs_unlink_sizes (st : fs_state) (path : CString)
    (h : ∀ i, (st.files i).size ≤ MAX_CONTENT_SIZE) :
    ∀ i, ((vfs_unlink st path).2.files i).size ≤ MAX_CONTENT_SIZE := by
  intro j
  unfold vfs_unlink
  split
  · rename_i i hfind
    obtain ⟨hi, _, _⟩ := (find_range_some _ _ i).1 hfind
    show (shift_down st.files i st.num_files j).size ≤ MAX_CONTENT_SIZE
    rw [shift_down_spec _ _ _ hi]
    split
    · exact h (j + 1)
    · exact h j
  · exact h j

theorem step_sizes (st : fs_state) (c : call) (st1 : fs_state) (h : step st c = some st1)
    (hok : sizes_ok st) : sizes_ok st1 := by
  obtain ⟨hf, hs⟩ := hok
  cases c with
  | mknod path =>
    simp only [step, Option.some.injEq] at h
    subst h
    exact ⟨vfs_mknod_sizes st path hf, by rw [(vfs_mknod_snapshots st path).1]; exact hs⟩
  | write path buf size offset =>
    simp only [step, Option.map_eq_some', Prod.exists, exists_eq_right] at h
    obtain ⟨r, hr⟩ := h
    exact ⟨vfs_write_sizes st path buf size offset r st1 hr hf,
      by rw [(vfs_write_snapshots st path buf size offset r st1 hr).1]; exact hs⟩
  | unlink path =>
    simp only [step, Option.some.injEq] at h
    subst h
    exact ⟨vfs_unlink_sizes st path hf, by rw [(vfs_unlink_snapshots st path).1]; exact hs⟩
  | snapshot =>
    simp only [step, Option.some.injEq] at h
    subst h
    unfold take_snapshot
    split
    · exact ⟨hf, hs⟩
    · refine ⟨hf, fun s i => ?_⟩
      show ((update st.snapshots st.num_snapshots _ s).files i).size ≤ MAX_CONTENT_SIZE
      unfold update
      split
      · exact hf i
      · exact hs s i
  | rollback snapshot_id =>
    simp only [step, Option.some.injEq] at h
    subst h
    unfold rollback
    split
    · exact ⟨hf, hs⟩
    · exact ⟨fun i => hs _ i, hs⟩

theorem run_sizes (calls : List call) :
    ∀ (st st1 : fs_state), run st calls = some st1 → sizes_ok st → sizes_ok st1 := by
  induction calls with
  | nil =>
    intro st st1 h hok
    simp only [run, Option.some.injEq] at h
    subst h
    exact hok
  | cons c cs ih =>
    intro st st1 h hok
    simp only [run, Option.bind_eq_some] at h
    obtain ⟨stm, hstep, hrest⟩ := h
    exact ih stm st1 hrest (step_sizes st c stm hstep hok)

/-- In every state reached from the initial state, every file has size at most
MAX_CONTENT_SIZE. -/
theorem reachable_sizes (calls : List call) (st : fs_state)
    (h : run fs_init calls = some st) : ∀ i, (st.files i).size ≤ MAX_CONTENT_SIZE :=
  (run_sizes calls fs_init st h ⟨fun _ => Nat.zero_le _, fun _ _ => Nat.zero_le _⟩).1

theorem diff_example_run : run fs_init diff_calls = some diff_example := by rfl

/-! ## Counters stay within the arrays -/

theorem vfs_write_counts (st : fs_state) (path : CString) (buf : List Byte) (size : Nat)
    (offset : Int) (r : Int) (st1 : fs_state)
    (h : vfs_write st path buf size offset = some (r, st1)) :
    st1.num_files = st.num_files := by
  unfold vfs_write at h
  split at h
  · cases h; rfl
  · split at h
    · cases h; rfl
    · split at h
      · cases h
      · cases h; rfl

theorem vfs_mknod_counts (st : fs_state) (path : CString) (h : st.num_files ≤ MAX_FILES) :
    (vfs_mknod st path).2.num_files ≤ MAX_FILES := by
  unfold vfs_mknod
  split
  · exact h
  · rename_i hroom
    split
    · exact h
    · show st.num_files + 1 ≤ MAX_FILES
      omega

theorem vfs_unlink_counts (st : fs_state) (path : CString) (h : st.num_files ≤ MAX_FILES) :
    (vfs_unlink st path).2.num_files ≤ MAX_FILES := by
  unfold vfs_unlink
  split
  · show st.num_files - 1 ≤ MAX_FILES
    omega
  · exact h

theorem step_bounds (st : fs_state) (c : call) (st1 : fs_state) (h : step st c = some st1)
    (hok : bounds_ok st) : bounds_ok st1 := by
  obtain ⟨hnf, hns, hsz, hsn⟩ := hok
  have hsz1 := step_sizes st c st1 h hsz
  cases c with
  | mknod path =>
    simp only [step, Option.some.injEq] at h
    subst h
    obtain ⟨e1, e2⟩ := vfs_mknod_snapshots st path
    exact ⟨vfs_mknod_counts st path hnf, by rw [e2]; exact hns, hsz1, by rw [e1]; exact hsn⟩
  | write path buf size offset =>
    simp only [step, Option.map_eq_some', Prod.exists, exists_eq_right] at h
    obtain ⟨r, hr⟩ := h
    obtain ⟨e1, e2⟩ := vfs_write_snapshots st path buf size offset r st1 hr
    exact ⟨by rw [vfs_write_counts st path buf size offset r st1 hr]; exact hnf,
      by rw [e2]; exact hns, hsz1, by rw [e1]; exact hsn⟩
  | unlink path =>
    simp only [step, Option.some.injEq] at h
    subst h
    obtain ⟨e1, e2⟩ := vfs_unlink_snapshots st path
    exact ⟨vfs_unlink_counts st path hnf, by rw [e2]; exact hns, hsz1, by rw [e1]; exact hsn⟩
  | snapshot =>
    simp only [step, Option.some.injEq] at h
    subst h
    refine ⟨?_, ?_, hsz1, ?_⟩
    · unfold take_snapshot
      split <;> exact hnf
    · unfold take_snapshot
      split
      · exact hns
      · show st.num_snapshots + 1 ≤ MAX_SNAPSHOTS
        omega
    · intro s
      unfold take_snapshot
      split
      · exact hsn s
      · show (update st.snapshots st.num_snapshots _ s).num_files ≤ MAX_FILES
        unfold update
        split
        · exact hnf
        · exact hsn s
  | rollback snapshot_id =>
    simp only [step, Option.some.injEq] at h
    subst h
    obtain ⟨e1, e2⟩ := rollback_snapshots st snapshot_id
    refine ⟨?_, by rw [e2]; exact hns, hsz1, by rw [e1]; exact hsn⟩
    unfold rollback
    split
    · exact hnf
    · exact hsn _

theorem run_bounds (calls : List call) :
    ∀ (st st1 : fs_state), run st calls = some st1 → bounds_ok st → bounds_ok st1 := by
  induction calls with
  | nil =>
    intro st st1 h hok
    simp only [run, Option.some.injEq] at h
    subst h
    exact hok
  | cons c cs ih =>
    intro st st1 h hok
    simp only [run, Option.bind_eq_some] at h
    obtain ⟨stm, hstep, hrest⟩ := h
    exact ih stm st1 hrest (step_bounds st c stm hstep hok)

theorem fs_init_bounds : bounds_ok fs_init :=
  ⟨Nat.zero_le _, Nat.zero_le _, ⟨fun _ => Nat.zero_le _, fun _ _ => Nat.zero_le _⟩,
    fun _ => Nat.zero_le _⟩

/-! ## Stored names are unique while created names fit the name field -/

theorem vfs_mknod_unique (st : fs_state) (path : CString) (hshort : (path.drop 1).length ≤ 255)
    (h : names_unique st) : names_unique (vfs_mknod st path).2 := by
  unfold vfs_mknod
  split
  · exact h
  · split
    · exact h
    · rename_i hnone
      have hno := (find_file_none st (path.drop 1)).1 hnone
      have htake : strncpy (path.drop 1) (NAME_SIZE - 1) = path.drop 1 :=
        List.take_of_length_le hshort
      intro i j hi hj hname
      have hi2 : i < st.num_files + 1 := hi
      have hj2 : j < st.num_files + 1 := hj
      simp only [update, htake] at hname
      by_cases hin : i = st.num_files
      · by_cases hjn : j = st.num_files
        · omega
        · simp only [hin, if_true, hjn, if_false] at hname
          exact absurd hname.symm (hno j (by omega))
      · by_cases hjn : j = st.num_files
        · simp only [hin, if_false, hjn, if_true] at hname
          exact absurd hname (hno i (by omega))
        · simp only [hin, if_false, hjn] at hname
          exact h i j (by omega) (by omega) hname

theorem vfs_write_names (st : fs_state) (path : CString) (buf : List Byte) (size : Nat)
    (offset : Int) (r : Int) (st1 : fs_state)
    (h : vfs_write st path buf size offset = some (r, st1)) :
    ∀ j, (st1.files j).name = (st.files j).name := by
  intro j
  unfold vfs_write at h
  split at h
  · cases h; rfl
  · split at h
    · cases h; rfl
    · split at h
      · cases h
      · cases h
        show (update st.files _ _ j).name = (st.files j).name
        unfold update
        split
        · rename_i hj; rw [hj]
        · rfl

theorem vfs_unlink_unique (st : fs_state) (path : CString) (h : names_unique st) :
    names_unique (vfs_unlink st path).2 := by
  unfold vfs_unlink
  split
  · rename_i i hfind
    obtain ⟨hi, _, _⟩ := (find_range_some _ _ i).1 hfind
    intro a b ha hb hname
    have ha2 : a < st.num_files - 1 := ha
    have hb2 : b < st.num_files - 1 := hb
    have hname2 : (shift_down st.files i st.num_files a).name =
        (shift_down st.files i st.num_files b).name := hname
    rw [shift_down_spec _ _ _ hi, shift_down_spec _ _ _ hi] at hname2
    by_cases hca : i ≤ a ∧ a + 1 < st.num_files
    · by_cases hcb : i ≤ b ∧ b + 1 < st.num_files
      · rw [if_pos hca, if_pos hcb] at hname2
        have := h (a + 1) (b + 1) (by omega) (by omega) hname2
        omega
      · rw [if_pos hca, if_neg hcb] at hname2
        have := h (a + 1) b (by omega) (by omega) hname2
        omega
    · by_cases hcb : i ≤ b ∧ b + 1 < st.num_files
      · rw [if_neg hca, if_pos hcb] at hname2
        have := h a (b + 1) (by omega) (by omega) hname2
        omega
      · rw [if_neg hca, if_neg hcb] at hname2
        exact h a b (by omega) (by omega) hname2
  · exact h

theorem step_unique (st : fs_state) (c : call) (st1 : fs_state) (h : step st c = some st1)
    (hshort : c.short) (hok : unique_ok st) : unique_ok st1 := by
  obtain ⟨hu, hs⟩ := hok
  cases c with
  | mknod path =>
    simp only [step, Option.some.injEq] at h
    subst h
    exact ⟨vfs_mknod_unique st path hshort hu, by rw [(vfs_mknod_snapshots st path).1]; exact hs⟩
  | write path buf size offset =>
    simp only [step, Option.map_eq_some', Prod.exists, exists_eq_right] at h
    obtain ⟨r, hr⟩ := h
    have hn := vfs_write_names st path buf size offset r st1 hr
    have hc := vfs_write_counts st path buf size offset r st1 hr
    refine ⟨?_, by rw [(vfs_write_snapshots st path buf size offset r st1 hr).1]; exact hs⟩
    intro i j hi hj hname
    have hi2 : i < st1.num_files := hi
    have hj2 : j < st1.num_files := hj
    rw [hn i, hn j] at hname
    exact hu i j (by omega) (by omega) hname
  | unlink path =>
    simp only [step, Option.some.injEq] at h
    subst h
    exact ⟨vfs_unlink_unique st path hu, by rw [(vfs_unlink_snapshots st path).1]; exact hs⟩
  | snapshot =>
    simp only [step, Option.some.injEq] at h
    subst h
    unfold take_snapshot
    split
    · exact ⟨hu, hs⟩
    · refine ⟨hu, fun s => ?_⟩
      show unique_in (update st.snapshots st.num_snapshots _ s).files
        (update st.snapshots st.num_snapshots _ s).num_files
      unfold update
      split
      · exact hu
      · exact hs s
  | rollback snapshot_id =>
    simp only [step, Option.some.injEq] at h
    subst h
    unfold rollback
    split
    · exact ⟨hu, hs⟩
    · exact ⟨hs _, hs⟩

/-- In every state reached from the initial state by calls whose created names have at most 255
bytes, no two live files have the same stored name. -/
theorem run_unique (calls : List call) :
    ∀ (st st1 : fs_state), run st calls = some st1 → (∀ c, c ∈ calls → c.short) →
      unique_ok st → unique_ok st1 := by
  induction calls with
  | nil =>
    intro st st1 h _ hok
    simp only [run, Option.some.injEq] at h
    subst h
    exact hok
  | cons c cs ih =>
    intro st st1 h hshort hok
    simp only [run, Option.bind_eq_some] at h
    obtain ⟨stm, hstep, hrest⟩ := h
    exact ih stm st1 hrest (fun d hd => hshort d (List.mem_cons_of_mem _ hd))
      (step_unique st c stm hstep (hshort c (List.mem_cons_self _ _)) hok)

theorem fs_init_unique : unique_ok fs_init :=
  ⟨fun i _ hi _ _ => absurd hi (Nat.not_lt_zero i),
    fun _ i _ hi _ _ => absurd hi (Nat.not_lt_zero i)⟩

theorem reachable_unique (calls : List call) (st : fs_state)
    (hrun : run fs_init calls = some st) (hshort : ∀ c, c ∈ calls → c.short) :
    names_unique st :=
  (run_unique calls fs_init st hrun hshort fs_init_unique).1

/-! ## The loop of the diff -/

theorem filterMap_diff_slot (s1 s2 : snapshot_t) (l : List Nat) :
    l.filterMap (diff_slot s1 s2) =
      (l.filter (fun i => decide (slot_differs s1 s2 i))).map
        (fun i => { name := (s1.files i).name
                    before := content_str s1 i
                    after := content_str s2 i }) := by
  induction l with
  | nil => rfl
  | cons a l ih =>
    by_cases h : slot_differs s1 s2 a
    · have h2 := h
      unfold slot_differs at h2
      simp [List.filterMap_cons, diff_slot, h, h2, ih]
    · have h2 := h
      unfold slot_differs at h2
      simp [List.filterMap_cons, diff_slot, h, h2, ih]

theorem content_str_congr (s1 s2 : snapshot_t) (hf : s1.files = s2.files)
    (hn : s1.num_files = s2.num_files) (i : Nat) : content_str s1 i = content_str s2 i := by
  simp only [content_str, after_content, hf, hn]

theorem diff_same_files (s1 s2 : snapshot_t) (hf : s1.files = s2.files)
    (hn : s1.num_files = s2.num_files) (l : List Nat) :
    l.filterMap (diff_slot s1 s2) = [] := by
  induction l with
  | nil => rfl
  | cons a l ih =>
    have hslot : diff_slot s1 s2 a = none := by
      simp [diff_slot, hf, content_str_congr s1 s2 hf hn a]
    rw [List.filterMap_cons, hslot]
    exact ih

/-! ## Snapshots that hold the same names in the same slots -/

theorem spec_live_names_nodup (s : snapshot_t) (huniq : unique_in s.files s.num_files) :
    (spec_live_names s).Nodup := by
  unfold spec_live_names
  refine List.Nodup.map_on ?_ (List.nodup_range _)
  intro i hi j hj hname
  exact huniq i j (List.mem_range.1 hi) (List.mem_range.1 hj) hname

theorem spec_live_names_congr (s1 s2 : snapshot_t) (hnum : s1.num_files = s2.num_files)
    (hnames : ∀ i, i < s1.num_files → (s1.files i).name = (s2.files i).name) :
    spec_live_names s2 = spec_live_names s1 := by
  unfold spec_live_names
  rw [← hnum]
  apply List.map_congr_left
  intro i hi
  exact (hnames i (List.mem_range.1 hi)).symm

theorem spec_lookup_slot (s : snapshot_t) (huniq : unique_in s.files s.num_files) (i : Nat)
    (hi : i < s.num_files) : spec_lookup s (s.files i).name = some (spec_bytes s i) := by
  have hfind : (List.range s.num_files).find?
      (fun j => decide ((s.files j).name = (s.files i).name)) = some i := by
    rw [find_range_some]
    refine ⟨hi, by simp, ?_⟩
    intro j hj
    have hne : (s.files j).name ≠ (s.files i).name := by
      intro h
      have := huniq j i (by omega) hi h
      omega
    simp [hne]
  simp only [spec_lookup, hfind, Option.map_some', spec_bytes]

theorem spec_lookup_mem (s : snapshot_t) (n : CString) (b : List Byte)
    (h : spec_lookup s n = some b) : n ∈ spec_live_names s := by
  unfold spec_lookup at h
  cases hf : (List.range s.num_files).find? (fun j => decide ((s.files j).name = n)) with
  | none => rw [hf] at h; cases h
  | some j =>
    obtain ⟨hj, hp, _⟩ := (find_range_some _ _ j).1 hf
    have hname : (s.files j).name = n := by simpa using hp
    unfold spec_live_names
    exact List.mem_map.2 ⟨j, List.mem_range.2 hj, hname⟩

theorem spec_status_mem (s1 s2 : snapshot_t) (n : CString)
    (h : (spec_status s1 s2 n).isSome = true) :
    n ∈ spec_live_names s1 ∨ n ∈ spec_live_names s2 := by
  unfold spec_status at h
  cases h1 : spec_lookup s1 n with
  | some b => exact Or.inl (spec_lookup_mem s1 n b h1)
  | none =>
    cases h2 : spec_lookup s2 n with
    | some b => exact Or.inr (spec_lookup_mem s2 n b h2)
    | none => rw [h1, h2] at h; cases h

theorem spec_status_slot (s1 s2 : snapshot_t) (hnum : s1.num_files = s2.num_files)
    (hnames : ∀ i, i < s1.num_files → (s1.files i).name = (s2.files i).name)
    (huniq : unique_in s1.files s1.num_files) (i : Nat) (hi : i < s1.num_files) :
    spec_status s1 s2 (s1.files i).name =
      if spec_bytes s1 i ≠ spec_bytes s2 i then some .Modified else none := by
  have huniq2 : unique_in s2.files s2.num_files := by
    intro a b ha hb hname
    rw [← hnum] at ha hb
    rw [← hnames a ha, ← hnames b hb] at hname
    exact huniq a b ha hb hname
  have hl1 := spec_lookup_slot s1 huniq i hi
  have hl2 := spec_lookup_slot s2 huniq2 i (by omega)
  rw [← hnames i hi] at hl2
  simp only [spec_status, hl1, hl2]

theorem spec_changed_names_aligned (s1 s2 : snapshot_t) (hnum : s1.num_files = s2.num_files)
    (hnames : ∀ i, i < s1.num_files → (s1.files i).name = (s2.files i).name)
    (huniq : unique_in s1.files s1.num_files) :
    spec_changed_names s1 s2 =
      ((List.range s1.num_files).filter
        (fun i => decide (spec_bytes s1 i ≠ spec_bytes s2 i))).map
        (fun i => (s1.files i).name) := by
  have hnodup := spec_live_names_nodup s1 huniq
  have hdedup : (spec_live_names s1 ++ spec_live_names s2).dedup = spec_live_names s1 := by
    rw [spec_live_names_congr s1 s2 hnum hnames, List.dedup_append, hnodup.dedup]
    exact List.Subset.union_eq_right (List.Subset.refl _)
  unfold spec_changed_names
  rw [hdedup]
  unfold spec_live_names
  rw [List.filter_map]
  congr 1
  apply List.filter_congr
  intro i hi
  have hi2 := List.mem_range.1 hi
  simp only [Function.comp, spec_status_slot s1 s2 hnum hnames huniq i hi2]
  by_cases hb : spec_bytes s1 i = spec_bytes s2 i
  · simp [hb]
  · simp [hb]

theorem filter_range_below (p : Nat → Bool) (n m : Nat) (hnm : n ≤ m)
    (hp : ∀ i, i < m → n ≤ i → p i = false) :
    (List.range m).filter p = (List.range n).filter p := by
  have hm : m = n + (m - n) := by omega
  rw [hm, List.range_add, List.filter_append]
  have hnil : List.filter p (List.map (fun x => n + x) (List.range (m - n))) = [] := by
    rw [List.filter_eq_nil_iff]
    intro a ha
    obtain ⟨k, hk, rfl⟩ := List.mem_map.1 ha
    have hk2 := List.mem_range.1 hk
    rw [hp (n + k) (by omega) (by omega)]
    simp
  rw [hnil, List.append_nil]

/-- When the content array of a slot holds a NUL, its C string lies inside the array. -/
theorem content_str_of_terminated (s : snapshot_t) (i : Nat) (h : content_terminated s i) :
    content_str s i = c_str_from (s.files i).content 0 MAX_CONTENT_SIZE := by
  unfold content_terminated at h
  simp only [content_str, h, if_true]

/-! ## C1: write then read -/

/-- C1. Round trip: when a file named n is live and b holds at most MAX_CONTENT_SIZE bytes, writing
b at offset 0 through the path "/n" returns len(b), and reading len(b) bytes at offset 0 through
the same path afterwards returns len(b) and copies exactly the bytes of b. -/
theorem C1_write_read_round_trip (st : fs_state) (n : CString) (b : List Byte)
    (hlive : live st n) (hlen : b.length ≤ MAX_CONTENT_SIZE) :
    ∃ st1, vfs_write st (SLASH :: n) b b.length 0 = some ((b.length : Int), st1) ∧
      vfs_read st1 (SLASH :: n) b.length 0 = some ((b.length : Int), b) := by
  obtain ⟨i, hfind⟩ := (live_iff_find_file st n).1 hlive
  have hM : MAX_CONTENT_SIZE = 65536 := rfl
  have hfind0 : find_file st ((SLASH :: n).drop 1) = some i := hfind
  have hw := vfs_write_in_range st (SLASH :: n) b 0 i hfind0 (le_refl _)
    (by rw [hM] at hlen ⊢; omega)
  refine ⟨_, hw, ?_⟩
  obtain ⟨hi, _, _⟩ := (find_file_some st n i).1 hfind
  have hfind1 : find_file
      { st with
        files := update st.files i
          { name := (st.files i).name
            content := fun k =>
              if (0 : Int).toNat ≤ k ∧ k < (0 : Int).toNat + b.length then
                b.getD (k - (0 : Int).toNat) 0
              else (st.files i).content k
            size := (0 : Int).toNat + b.length } } ((SLASH :: n).drop 1) = some i := by
    rw [← hfind0]
    apply find_file_congr
    · rfl
    · intro j _
      by_cases hj : j = i
      · subst hj; simp [update]
      · simp [update, hj]
  by_cases hb : b.length = 0
  · have hnil : b = [] := List.length_eq_zero.1 hb
    subst hnil
    rw [vfs_read_at_end _ _ _ _ i hfind1 (le_refl _) (by norm_num) (by simp [update])]
    rfl
  · rw [vfs_read_in_range _ _ _ _ i hfind1 (by simpa [update] using hlen) (le_refl _)
      (by simp [update]; omega) (by rw [hM] at hlen; omega)]
    have hmin : min b.length ((0 : Int).toNat + b.length - (0 : Int).toNat) = b.length := by
      simp
    simp only [update, if_true, hmin]
    congr 2
    rw [← map_range_getD b]
    simp only [List.length_map, List.length_range]
    apply List.map_congr_left
    intro k hk
    have hk2 : k < b.length := by simpa using hk
    simp [hk2, map_range_getD]

theorem C1_write_read_round_trip_witness :
    live one_file [97] ∧ [104, 105].length ≤ MAX_CONTENT_SIZE ∧
      ∃ st1, vfs_write one_file [SLASH, 97] [104, 105] 2 0 = some (2, st1) ∧
        vfs_read st1 [SLASH, 97] 2 0 = some (2, [104, 105]) :=
  ⟨⟨0, by decide, by decide⟩, by decide,
    C1_write_read_round_trip one_file [97] [104, 105] ⟨0, by decide, by decide⟩ (by decide)⟩

theorem mixed_calls_wf : ∀ c, c ∈ mixed_calls → c.wf := by
  intro c hc
  simp only [mixed_calls, List.mem_cons, List.mem_singleton, List.not_mem_nil, or_false] at hc
  rcases hc with h | h | h | h | h | h | h | h | h <;> subst h <;>
    first
    | exact True.intro
    | exact ⟨by norm_num, by norm_num, by simp only [List.length_replicate, List.length_cons,
        List.length_nil], by norm_num⟩

theorem getattr_congr (st st1 : fs_state) (hf : st1.files = st.files)
    (hn : st1.num_files = st.num_files) (path : CString) :
    vfs_getattr st1 path = vfs_getattr st path := by
  simp only [vfs_getattr, find_file, hf, hn]

theorem readdir_congr (st st1 : fs_state) (hf : st1.files = st.files)
    (hn : st1.num_files = st.num_files) (path : CString) :
    vfs_readdir st1 path = vfs_readdir st path := by
  simp only [vfs_readdir, hf, hn]

theorem read_congr (st st1 : fs_state) (hf : st1.files = st.files)
    (hn : st1.num_files = st.num_files) (path : CString) (size : Nat) (offset : Int) :
    vfs_read st1 path size offset = vfs_read st path size offset := by
  simp only [vfs_read, find_file, hf, hn]

/-! ## C2: rollback restores the captured file table -/

/-- C2. Rollback correctness: let take_snapshot store snapshot s (there was room, so s is the old
num_snapshots) when the live table was the one of st0. Every sequence of mknod, write, unlink,
take_snapshot and rollback calls with well-formed arguments runs to a state, and from every state
such a sequence runs to, rollback(s) returns 0 and makes the file array and num_files those of
st0, so that vfs_getattr, vfs_readdir and vfs_read answer as they did at capture time. -/
theorem C2_rollback_restores_capture (st0 : fs_state) (calls : List call)
    (hroom : st0.num_snapshots < MAX_SNAPSHOTS) :
    ((∀ c, c ∈ calls → c.wf) → ∃ st2, run (take_snapshot st0) calls = some st2) ∧
      ∀ st2, run (take_snapshot st0) calls = some st2 →
        (rollback st2 (st0.num_snapshots : Int)).1 = 0 ∧
        (rollback st2 (st0.num_snapshots : Int)).2.num_files = st0.num_files ∧
        (rollback st2 (st0.num_snapshots : Int)).2.files = st0.files ∧
        ∀ path,
          vfs_getattr (rollback st2 (st0.num_snapshots : Int)).2 path = vfs_getattr st0 path ∧
          vfs_readdir (rollback st2 (st0.num_snapshots : Int)).2 path = vfs_readdir st0 path ∧
          ∀ size offset,
            vfs_read (rollback st2 (st0.num_snapshots : Int)).2 path size offset =
              vfs_read st0 path size offset := by
  refine ⟨run_defined calls (take_snapshot st0), ?_⟩
  intro st2 hrun
  have hnot : ¬ (st0.num_snapshots ≥ MAX_SNAPSHOTS) := by omega
  have htake_n : (take_snapshot st0).num_snapshots = st0.num_snapshots + 1 := by
    simp [take_snapshot, hnot]
  have htake_s : (take_snapshot st0).snapshots st0.num_snapshots =
      { files := st0.files, num_files := st0.num_files } := by
    simp [take_snapshot, hnot, update]
  obtain ⟨hkeep, hmono⟩ := run_snapshots calls (take_snapshot st0) st2 hrun
  have hsnap : st2.snapshots st0.num_snapshots =
      { files := st0.files, num_files := st0.num_files } := by
    rw [hkeep st0.num_snapshots (by omega), htake_s]
  have hvalid : ¬ ((st0.num_snapshots : Int) < 0 ∨
      (st0.num_snapshots : Int) ≥ (st2.num_snapshots : Int)) := by omega
  have hroll : rollback st2 (st0.num_snapshots : Int) =
      (0, { st2 with files := st0.files, num_files := st0.num_files }) := by
    simp only [rollback, hvalid, if_false, Int.toNat_ofNat, hsnap]
  rw [hroll]
  refine ⟨rfl, rfl, rfl, fun path => ⟨?_, ?_, fun size offset => ?_⟩⟩
  · exact getattr_congr st0 _ rfl rfl path
  · exact readdir_congr st0 _ rfl rfl path
  · exact read_congr st0 _ rfl rfl path size offset

theorem C2_rollback_restores_capture_witness :
    one_file.num_snapshots < MAX_SNAPSHOTS ∧
      ∃ st2, run (take_snapshot one_file) mixed_calls = some st2 ∧
        (rollback st2 0).1 = 0 ∧ (rollback st2 0).2.num_files = one_file.num_files ∧
        (rollback st2 0).2.files = one_file.files := by
  have h := C2_rollback_restores_capture one_file mixed_calls (by decide)
  obtain ⟨st2, hrun⟩ := h.1 mixed_calls_wf
  obtain ⟨h1, h2, h3, _⟩ := h.2 st2 hrun
  exact ⟨by decide, st2, hrun, h1, h2, h3⟩

/-! ## C3: snapshots are immutable -/

/-- C3. Snapshot immutability: every sequence of mknod, write, unlink, take_snapshot and rollback
calls with well-formed arguments (successful or not) runs to a state, and in every state a sequence
of such calls runs to, each snapshot s below the old num_snapshots still has the file copies and
the num_files it had, and num_snapshots has not decreased. -/
theorem C3_snapshots_immutable (st : fs_state) (calls : List call) :
    ((∀ c, c ∈ calls → c.wf) → ∃ st1, run st calls = some st1) ∧
      ∀ st1, run st calls = some st1 →
        (∀ s, s < st.num_snapshots →
          (st1.snapshots s).files = (st.snapshots s).files ∧
          (st1.snapshots s).num_files = (st.snapshots s).num_files) ∧
        st.num_snapshots ≤ st1.num_snapshots := by
  refine ⟨run_defined calls st, ?_⟩
  intro st1 hrun
  obtain ⟨hkeep, hmono⟩ := run_snapshots calls st st1 hrun
  exact ⟨fun s hs => by rw [hkeep s hs]; exact ⟨rfl, rfl⟩, hmono⟩

theorem C3_snapshots_immutable_witness :
    ∃ st1, run one_snapshot mixed_calls = some st1 ∧
      (st1.snapshots 0).files = (one_snapshot.snapshots 0).files ∧
      (st1.snapshots 0).num_files = (one_snapshot.snapshots 0).num_files ∧
      one_snapshot.num_snapshots ≤ st1.num_snapshots := by
  have h := C3_snapshots_immutable one_snapshot mixed_calls
  obtain ⟨st1, hrun⟩ := h.1 mixed_calls_wf
  obtain ⟨hkeep, hmono⟩ := h.2 st1 hrun
  exact ⟨st1, hrun, (hkeep 0 (by decide)).1, (hkeep 0 (by decide)).2, hmono⟩

/-! ## C4: the diff compares slot by slot, not by name -/

/-- C4, counterexample. With snapshot 0 = a:"x", b:"y" and snapshot 1 = a:"x", c:"z",
built by the calls of diff_calls, a name-keyed diff has entries for the two names b (Removed) and c
(Added); visualize_diff prints the single entry of slot 1, headed by the name b with the contents
"y" and "z", and none that names c. -/
theorem C4_diff_not_name_keyed :
    run fs_init diff_calls = some diff_example ∧
    spec_live_names (diff_example.snapshots 0) = [[97], [98]] ∧
    spec_live_names (diff_example.snapshots 1) = [[97], [99]] ∧
    spec_status (diff_example.snapshots 0) (diff_example.snapshots 1) [97] = none ∧
    spec_status (diff_example.snapshots 0) (diff_example.snapshots 1) [98] = some .Removed ∧
    spec_status (diff_example.snapshots 0) (diff_example.snapshots 1) [99] = some .Added ∧
    visualize_diff diff_example 0 1 =
      .report [{ name := [98], before := [121], after := [122] }] ∧
    ¬ name_keyed diff_example 0 1 := by
  refine ⟨by rfl, by decide, by decide, by decide, by decide, by decide, by decide, ?_⟩
  rintro ⟨es, hes, hperm⟩
  have hrep : visualize_diff diff_example ((0 : Nat) : Int) ((1 : Nat) : Int) =
      .report [{ name := [98], before := [121], after := [122] }] := by decide
  rw [hrep] at hes
  cases hes
  have hnames : spec_changed_names (diff_example.snapshots 0) (diff_example.snapshots 1) =
      [[98], [99]] := by decide
  rw [hnames] at hperm
  have hlen := hperm.length_eq
  simp at hlen

/-- C4, as amended. For valid snapshot ids whose two snapshots hold the same pairwise distinct
live names in the same slots, do not differ in the slots that hold no live file, and hold in
every live content exactly the file's bytes [0, size) as a C string, visualize_diff is name-keyed:
it reports exactly one entry per file name that has a status, in slot order; every entry is for a
name that is live in both with different content bytes (Modified) and carries that name and the
file's bytes in each snapshot; a name whose content is the same in both gets no entry. -/
theorem C4_diff_of_aligned_snapshots (st : fs_state) (snap1 snap2 : Nat)
    (h1 : snap1 < st.num_snapshots) (h2 : snap2 < st.num_snapshots)
    (hcap : (st.snapshots snap1).num_files ≤ MAX_FILES)
    (hnum : (st.snapshots snap1).num_files = (st.snapshots snap2).num_files)
    (hnames : ∀ i, i < (st.snapshots snap1).num_files →
      ((st.snapshots snap1).files i).name = ((st.snapshots snap2).files i).name)
    (huniq : unique_in (st.snapshots snap1).files (st.snapshots snap1).num_files)
    (hrest : ∀ i, i < MAX_FILES → (st.snapshots snap1).num_files ≤ i →
      ¬ slot_differs (st.snapshots snap1) (st.snapshots snap2) i)
    (hstr1 : ∀ i, i < (st.snapshots snap1).num_files →
      content_str (st.snapshots snap1) i = spec_bytes (st.snapshots snap1) i)
    (hstr2 : ∀ i, i < (st.snapshots snap1).num_files →
      content_str (st.snapshots snap2) i = spec_bytes (st.snapshots snap2) i) :
    ∃ es, visualize_diff st (snap1 : Int) (snap2 : Int) = .report es ∧
      es.map diff_entry.name = spec_changed_names (st.snapshots snap1) (st.snapshots snap2) ∧
      (es.map diff_entry.name).Nodup ∧
      (∀ n, n ∈ es.map diff_entry.name ↔
        (spec_status (st.snapshots snap1) (st.snapshots snap2) n).isSome = true) ∧
      (∀ e, e ∈ es →
        spec_status (st.snapshots snap1) (st.snapshots snap2) e.name = some .Modified ∧
        spec_lookup (st.snapshots snap1) e.name = some e.before ∧
        spec_lookup (st.snapshots snap2) e.name = some e.after) ∧
      name_keyed st snap1 snap2 := by
  have hvalid : ¬ ((snap1 : Int) < 0 ∨ (snap1 : Int) ≥ (st.num_snapshots : Int) ∨
      (snap2 : Int) < 0 ∨ (snap2 : Int) ≥ (st.num_snapshots : Int)) := by omega
  have hdiffers : ∀ i, i < (st.snapshots snap1).num_files →
      (slot_differs (st.snapshots snap1) (st.snapshots snap2) i ↔
        spec_bytes (st.snapshots snap1) i ≠ spec_bytes (st.snapshots snap2) i) := by
    intro i hi
    unfold slot_differs
    rw [hstr1 i hi, hstr2 i hi]
    constructor
    · rintro (h | h)
      · exact absurd (hnames i hi) h
      · exact h
    · exact fun h => Or.inr h
  have hfilter : (List.range MAX_FILES).filter
      (fun i => decide (slot_differs (st.snapshots snap1) (st.snapshots snap2) i)) =
      (List.range (st.snapshots snap1).num_files).filter
        (fun i => decide (spec_bytes (st.snapshots snap1) i ≠
          spec_bytes (st.snapshots snap2) i)) := by
    rw [filter_range_below _ _ _ hcap (fun i hi hle => by simpa using hrest i hi hle)]
    apply List.filter_congr
    intro i hi
    have := hdiffers i (List.mem_range.1 hi)
    simp only [this]
  have hreport : visualize_diff st (snap1 : Int) (snap2 : Int) =
      .report (((List.range (st.snapshots snap1).num_files).filter
        (fun i => decide (spec_bytes (st.snapshots snap1) i ≠
          spec_bytes (st.snapshots snap2) i))).map
        (fun i => { name := ((st.snapshots snap1).files i).name
                    before := content_str (st.snapshots snap1) i
                    after := content_str (st.snapshots snap2) i })) := by
    simp only [visualize_diff, hvalid, if_false, Int.toNat_ofNat, filterMap_diff_slot, hfilter]
  have hchanged := spec_changed_names_aligned (st.snapshots snap1) (st.snapshots snap2) hnum
    hnames huniq
  have hmapname : (((List.range (st.snapshots snap1).num_files).filter
        (fun i => decide (spec_bytes (st.snapshots snap1) i ≠
          spec_bytes (st.snapshots snap2) i))).map
        (fun i => ({ name := ((st.snapshots snap1).files i).name
                     before := content_str (st.snapshots snap1) i
                     after := content_str (st.snapshots snap2) i } : diff_entry))).map
        diff_entry.name = spec_changed_names (st.snapshots snap1) (st.snapshots snap2) := by
    rw [hchanged, List.map_map]
    rfl
  have hnodup : (spec_changed_names (st.snapshots snap1) (st.snapshots snap2)).Nodup := by
    unfold spec_changed_names
    exact (List.nodup_dedup _).filter _
  have huniq2 : unique_in (st.snapshots snap2).files (st.snapshots snap2).num_files := by
    intro a b ha hb hname
    rw [← hnum] at ha hb
    rw [← hnames a ha, ← hnames b hb] at hname
    exact huniq a b ha hb hname
  refine ⟨_, hreport, hmapname, by rw [hmapname]; exact hnodup, ?_, ?_, ?_⟩
  · intro n
    rw [hmapname]
    unfold spec_changed_names
    rw [List.mem_filter, List.mem_dedup, List.mem_append]
    constructor
    · exact fun h => h.2
    · exact fun h => ⟨spec_status_mem _ _ n h, h⟩
  · intro e he
    obtain ⟨i, hi, rfl⟩ := List.mem_map.1 he
    obtain ⟨hi1, hi2⟩ := List.mem_filter.1 hi
    have hi3 := List.mem_range.1 hi1
    have hne : spec_bytes (st.snapshots snap1) i ≠ spec_bytes (st.snapshots snap2) i := by
      simpa using hi2
    refine ⟨?_, ?_, ?_⟩
    · show spec_status _ _ ((st.snapshots snap1).files i).name = some .Modified
      rw [spec_status_slot _ _ hnum hnames huniq i hi3, if_pos hne]
    · show spec_lookup _ ((st.snapshots snap1).files i).name =
        some (content_str (st.snapshots snap1) i)
      rw [spec_lookup_slot _ huniq i hi3, hstr1 i hi3]
    · show spec_lookup _ ((st.snapshots snap1).files i).name =
        some (content_str (st.snapshots snap2) i)
      rw [hnames i hi3, spec_lookup_slot _ huniq2 i (by omega), hstr2 i hi3]
  · exact ⟨_, hreport, by rw [hmapname]⟩

theorem C4_diff_of_aligned_snapshots_witness :
    visualize_diff modify_example 0 1 =
      .report [{ name := [97], before := [120], after := [122] }] ∧
    spec_changed_names (modify_example.snapshots 0) (modify_example.snapshots 1) = [[97]] ∧
    spec_status (modify_example.snapshots 0) (modify_example.snapshots 1) [97] =
      some .Modified ∧
    spec_status (modify_example.snapshots 0) (modify_example.snapshots 1) [98] = none ∧
    name_keyed modify_example 0 1 := by
  have huniq : unique_in (modify_example.snapshots 0).files
      (modify_example.snapshots 0).num_files := by
    intro i j hi hj hname
    have hi2 : i < 2 := hi
    have hj2 : j < 2 := hj
    interval_cases i <;> interval_cases j <;>
      first
      | rfl
      | exact absurd hname (by decide)
  obtain ⟨es, _, _, _, _, _, hkeyed⟩ := C4_diff_of_aligned_snapshots modify_example 0 1
    (by decide) (by decide) (by decide) (by decide) (by decide) huniq (by decide)
    (by decide) (by decide)
  exact ⟨by decide, by decide, by decide, by decide, hkeyed⟩

/-! ## C5: a failed call leaves the state as it was -/

theorem memcpy_in_some (content : Nat → Byte) (offset : Int) (buf : List Byte) (size : Nat)
    (c : Nat → Byte) (h : memcpy_in content offset buf size = some c) :
    0 ≤ offset ∧ offset + (size : Int) ≤ (MAX_CONTENT_SIZE : Int) ∧ size ≤ buf.length := by
  unfold memcpy_in at h
  split at h
  · assumption
  · cases h

theorem memcpy_out_some (content : Nat → Byte) (offset : Int) (size : Nat)
    (bytes : List Byte) (h : memcpy_out content offset size = some bytes) :
    0 ≤ offset ∧ offset + (size : Int) ≤ (MAX_CONTENT_SIZE : Int) := by
  unfold memcpy_out at h
  split at h
  · assumption
  · cases h

theorem vfs_write_ok_nonneg (st : fs_state) (path : CString) (buf : List Byte) (size : Nat)
    (offset : Int) (r : Int) (st1 : fs_state)
    (h : vfs_write st path buf size offset = some (r, st1)) :
    st1 = st ∨ 0 ≤ r := by
  unfold vfs_write at h
  split at h
  · cases h; exact Or.inl rfl
  · split at h
    · cases h; exact Or.inl rfl
    · split at h
      · cases h
      · rename_i c hc
        have hcpy := memcpy_in_some _ _ _ _ _ hc
        cases h
        right
        have hM : MAX_CONTENT_SIZE = 65536 := rfl
        rw [hM] at hcpy
        rw [to_int_of_small size (by omega)]
        omega

/-- C5. Atomicity on error: in every state, when vfs_mknod returns -ENOSPC or -EEXIST, vfs_write
returns -ENOENT or -EFBIG, vfs_unlink returns -ENOENT or rollback returns -EINVAL, the state
returned is the state before the call; take_snapshot with num_snapshots = MAX_SNAPSHOTS returns the
state before the call; and vfs_read, which has no access that writes fs_state, copies no byte when
it returns -ENOENT. -/
theorem C5_failed_call_keeps_state (st : fs_state) :
    (∀ path, (vfs_mknod st path).1 = -ENOSPC ∨ (vfs_mknod st path).1 = -EEXIST →
        (vfs_mknod st path).2 = st) ∧
    (∀ path buf size offset r st1, vfs_write st path buf size offset = some (r, st1) →
        r = -ENOENT ∨ r = -EFBIG → st1 = st) ∧
    (∀ path size offset r bytes, vfs_read st path size offset = some (r, bytes) →
        r = -ENOENT → bytes = []) ∧
    (∀ path, (vfs_unlink st path).1 = -ENOENT → (vfs_unlink st path).2 = st) ∧
    (∀ snapshot_id, (rollback st snapshot_id).1 = -EINVAL → (rollback st snapshot_id).2 = st) ∧
    (st.num_snapshots = MAX_SNAPSHOTS → take_snapshot st = st) := by
  refine ⟨?_, ?_, ?_, ?_, ?_, ?_⟩
  · intro path h
    unfold vfs_mknod at h ⊢
    split
    · rfl
    · rename_i hroom
      simp only [hroom, if_false] at h
      split
      · rfl
      · rename_i hnone
        simp only [hnone] at h
        rcases h with h | h <;> simp [ENOSPC, EEXIST] at h
  · intro path buf size offset r st1 h herr
    rcases vfs_write_ok_nonneg st path buf size offset r st1 h with hst | hr
    · exact hst
    · rcases herr with h | h <;> (rw [h] at hr; simp [ENOENT, EFBIG] at hr)
  · intro path size offset r bytes h herr
    unfold vfs_read at h
    split at h
    · cases h; rfl
    · simp only at h
      split at h
      · cases h; rfl
      · split at h
        · cases h
        · rename_i bs hbs
          have hcpy := memcpy_out_some _ _ _ _ hbs
          cases h
          exfalso
          have hM : MAX_CONTENT_SIZE = 65536 := rfl
          rw [hM] at hcpy
          rw [to_int_of_small _ (by omega)] at herr
          simp only [ENOENT] at herr
          omega
  · intro path h
    unfold vfs_unlink at h ⊢
    split
    · rename_i i hfind
      simp only [hfind] at h
      simp [ENOENT] at h
    · rfl
  · intro snapshot_id h
    unfold rollback at h ⊢
    split
    · rfl
    · rename_i hvalid
      simp only [hvalid, if_false] at h
      simp [EINVAL] at h
  · intro hfull
    unfold take_snapshot
    rw [if_pos (by omega)]

theorem C5_failed_call_keeps_state_witness :
    (vfs_mknod one_file [SLASH, 97]).1 = -EEXIST ∧ (vfs_mknod one_file [SLASH, 97]).2 = one_file ∧
    (vfs_unlink one_file [SLASH, 98]).1 = -ENOENT ∧ (vfs_unlink one_file [SLASH, 98]).2 = one_file ∧
    (rollback one_file 3).1 = -EINVAL ∧ (rollback one_file 3).2 = one_file ∧
    vfs_write one_file [SLASH, 98] [104] 1 0 = some (-ENOENT, one_file) ∧
    vfs_write one_file [SLASH, 97] [104] 1 65536 = some (-EFBIG, one_file) := by
  obtain ⟨hm, hw, _, hu, hr, _⟩ := C5_failed_call_keeps_state one_file
  refine ⟨by decide, hm _ (Or.inr (by decide)), by decide, hu _ (by decide), by decide,
    hr _ (by decide), ?_, ?_⟩
  · have h : vfs_write one_file [SLASH, 98] [104] 1 0 =
        some (-ENOENT, (vfs_write one_file [SLASH, 98] [104] 1 0).get (by decide) |>.2) := by rfl
    rw [h]
    rw [hw _ _ _ _ _ _ h (Or.inl rfl)]
  · have h : vfs_write one_file [SLASH, 97] [104] 1 65536 =
        some (-EFBIG, (vfs_write one_file [SLASH, 97] [104] 1 65536).get (by decide) |>.2) := by rfl
    rw [h]
    rw [hw _ _ _ _ _ _ h (Or.inr rfl)]

/-! ## C6: creating a name that is live -/

/-- C6, counterexample. In the state reached from the initial one by creating the one hundred
files of short_names, the file "a" is live, and vfs_mknod("/a") returns -ENOSPC, which is not
-EEXIST: the capacity test comes before the lookup. -/
theorem C6_full_table_gives_enospc :
    live (mknod_all fs_init short_names).2 [97] ∧
    vfs_mknod (mknod_all fs_init short_names).2 [SLASH, 97] =
      (-ENOSPC, (mknod_all fs_init short_names).2) ∧
    (vfs_mknod (mknod_all fs_init short_names).2 [SLASH, 97]).1 ≠ -EEXIST := by
  obtain ⟨_, h2, _, h4, _, _⟩ := mknod_all_spec short_names fs_init
    (by rw [short_names_length]; decide) short_names_nodup short_names_short
    (fun n _ => not_live_of_no_files fs_init rfl n)
  have hnum : (mknod_all fs_init short_names).2.num_files = MAX_FILES := by
    rw [h2, short_names_length]; rfl
  have hfull : (mknod_all fs_init short_names).2.num_files ≥ MAX_FILES := by rw [hnum]
  have hres : vfs_mknod (mknod_all fs_init short_names).2 [SLASH, 97] =
      (-ENOSPC, (mknod_all fs_init short_names).2) := vfs_mknod_full _ _ hfull
  refine ⟨⟨0, by rw [hnum]; decide, ?_⟩, hres, by rw [hres]; decide⟩
  have h0 := h4 0 (by rw [short_names_length]; decide)
  have hidx : fs_init.num_files + 0 = 0 := rfl
  rw [hidx] at h0
  rw [h0]
  rfl

/-- C6, as amended. When a file whose stored name is n is live, vfs_mknod("/n") adds no file and
returns the state as it was; its return value is -EEXIST when the table has room
(num_files < MAX_FILES) and -ENOSPC when the table is full. -/
theorem C6_mknod_of_live_name (st : fs_state) (n : CString) (hlive : live st n) :
    (st.num_files < MAX_FILES → vfs_mknod st (SLASH :: n) = (-EEXIST, st)) ∧
    (st.num_files ≥ MAX_FILES → vfs_mknod st (SLASH :: n) = (-ENOSPC, st)) := by
  obtain ⟨i, hfind⟩ := (live_iff_find_file st n).1 hlive
  constructor
  · intro hroom
    have hnot : ¬ (st.num_files ≥ MAX_FILES) := by omega
    simp only [vfs_mknod, hnot, if_false, drop_one_path, hfind]
  · intro hfull
    simp only [vfs_mknod, hfull, if_true]

theorem C6_mknod_of_live_name_witness :
    live one_file [97] ∧ one_file.num_files < MAX_FILES ∧
      vfs_mknod one_file [SLASH, 97] = (-EEXIST, one_file) :=
  ⟨⟨0, by decide, by decide⟩, by decide,
    (C6_mknod_of_live_name one_file [97] ⟨0, by decide, by decide⟩).1 (by decide)⟩

/-! ## C7: file capacity -/

set_option maxRecDepth 1000000 in
/-- C7, counterexample. The one hundred names of long_names are pairwise distinct, yet starting
from the empty table the second call, for the name of 255 bytes, returns -EEXIST: the first call
stored only the first 255 bytes of its 256-byte name, which is the second name. -/
theorem C7_distinct_names_collide :
    long_names.length = MAX_FILES ∧ long_names.Nodup ∧ fs_init.num_files = 0 ∧
    (mknod_all fs_init long_names).1[0]? = some 0 ∧
    (mknod_all fs_init long_names).1[1]? = some (-EEXIST) ∧
    (mknod_all fs_init long_names).2.num_files = 99 := by
  refine ⟨by decide, by decide, by decide, by decide, by decide, by decide⟩

/-- C7, as amended. Starting from an empty file table, MAX_FILES calls of vfs_mknod with pairwise
distinct names of at most 255 bytes each return 0, and the call number k + 1 adds one file with
that name, size 0 and zeroed content in slot k, at the end of the table, leaving the files before it
as they were; after them the table holds exactly those 100 files, and one more vfs_mknod, for any
path, returns -ENOSPC and leaves the state as it is. -/
theorem C7_capacity (st : fs_state) (names : List CString) (hempty : st.num_files = 0)
    (hlen : names.length = MAX_FILES) (hnodup : names.Nodup)
    (hshort : ∀ n, n ∈ names → n.length ≤ 255) :
    (∀ k (hk : k < names.length),
      (mknod_all st (names.take k)).2.num_files = k ∧
      (vfs_mknod (mknod_all st (names.take k)).2 (SLASH :: names[k])).1 = 0 ∧
      (vfs_mknod (mknod_all st (names.take k)).2 (SLASH :: names[k])).2.num_files = k + 1 ∧
      (vfs_mknod (mknod_all st (names.take k)).2 (SLASH :: names[k])).2.files k =
        { name := names[k], size := 0, content := fun _ => 0 } ∧
      ∀ i, i < k →
        (vfs_mknod (mknod_all st (names.take k)).2 (SLASH :: names[k])).2.files i =
          (mknod_all st (names.take k)).2.files i) ∧
    (mknod_all st names).1 = List.replicate MAX_FILES 0 ∧
    (mknod_all st names).2.num_files = MAX_FILES ∧
    (∀ j (h : j < names.length), (mknod_all st names).2.files j =
      { name := names[j], size := 0, content := fun _ => 0 }) ∧
    ∀ path, vfs_mknod (mknod_all st names).2 path = (-ENOSPC, (mknod_all st names).2) := by
  have hnew : ∀ l : List CString, ∀ n, n ∈ l → ¬ live st n :=
    fun _ n _ => not_live_of_no_files st hempty n
  obtain ⟨a1, a2, _, a4, _, _⟩ := mknod_all_spec names st (by rw [hempty, hlen]; omega) hnodup
    hshort (hnew names)
  rw [hempty, Nat.zero_add] at a2
  refine ⟨?_, by rw [a1, hlen], by rw [a2, hlen], ?_, ?_⟩
  · intro k hk
    have hklen : (names.take k).length = k := by
      rw [List.length_take]; omega
    obtain ⟨_, b2, _, b4, _, _⟩ := mknod_all_spec (names.take k) st
      (by rw [hempty, hklen, ← hlen]; omega)
      (hnodup.sublist (List.take_sublist k names))
      (fun n hn => hshort n (List.mem_of_mem_take hn)) (hnew _)
    rw [hempty, Nat.zero_add, hklen] at b2
    have hnotlive : ¬ live (mknod_all st (names.take k)).2 names[k] := by
      rintro ⟨i, hi, hname⟩
      rw [b2] at hi
      have hi2 : i < (names.take k).length := by rw [hklen]; exact hi
      have h4 := b4 i hi2
      rw [hempty, Nat.zero_add] at h4
      rw [h4] at hname
      simp only [List.getElem_take] at hname
      have hik : i = k := (List.Nodup.getElem_inj_iff hnodup).1 hname
      omega
    have htake : (names[k]).take 255 = names[k] :=
      List.take_of_length_le (hshort _ (List.getElem_mem _))
    have hok := vfs_mknod_ok (mknod_all st (names.take k)).2 names[k]
      (by rw [b2, ← hlen]; exact hk) hnotlive
    rw [htake, b2] at hok
    refine ⟨b2, by rw [hok], by rw [hok], by rw [hok]; simp only [update, if_true], ?_⟩
    intro i hi
    have hne : i ≠ k := by omega
    rw [hok]
    simp only [update, hne, if_false]
  · intro j hj
    have h4 := a4 j hj
    rw [hempty, Nat.zero_add] at h4
    exact h4
  · intro path
    have hfull : (mknod_all st names).2.num_files ≥ MAX_FILES := by rw [a2, hlen]
    simp only [vfs_mknod, hfull, if_true]

theorem C7_capacity_witness :
    fs_init.num_files = 0 ∧ short_names.length = MAX_FILES ∧ short_names.Nodup ∧
    (∀ n, n ∈ short_names → n.length ≤ 255) ∧
    (mknod_all fs_init short_names).1 = List.replicate MAX_FILES 0 ∧
    (mknod_all fs_init short_names).2.num_files = MAX_FILES ∧
    vfs_mknod (mknod_all fs_init short_names).2 [SLASH, 122] =
      (-ENOSPC, (mknod_all fs_init short_names).2) := by
  obtain ⟨_, h1, h2, _, h4⟩ := C7_capacity fs_init short_names rfl short_names_length
    short_names_nodup short_names_short
  exact ⟨rfl, short_names_length, short_names_nodup, short_names_short, h1, h2, h4 _⟩

/-! ## C8: the write contract -/

/-- C8. Write contract: for every state, name n, offset with 0 <= offset (an off_t) and byte
sequence b (a buffer, so shorter than 2^63 bytes), vfs_write("/n", b, len(b), offset) returns; it
returns -ENOENT exactly when no live file is named n; otherwise it returns -EFBIG exactly when
offset + len(b) > MAX_CONTENT_SIZE; otherwise it returns len(b), the bytes of b are in
content[offset .. offset + len(b)) of the first live file named n, and the size of that file is
offset + len(b), whatever it was before. -/
theorem C8_write_contract (st : fs_state) (n : CString) (b : List Byte) (offset : Int)
    (h0 : 0 ≤ offset) (h1 : offset < 2 ^ 63) (hb : b.length < 2 ^ 63) :
    ∃ r st1, vfs_write st (SLASH :: n) b b.length offset = some (r, st1) ∧
      (r = -ENOENT ↔ ¬ live st n) ∧
      (live st n → (r = -EFBIG ↔ offset + (b.length : Int) > (MAX_CONTENT_SIZE : Int))) ∧
      ∀ i, find_file st n = some i → offset + (b.length : Int) ≤ (MAX_CONTENT_SIZE : Int) →
        r = (b.length : Int) ∧
        ((st1.files i).size : Int) = offset + (b.length : Int) ∧
        ∀ k (hk : k < b.length), (st1.files i).content (offset.toNat + k) = b[k] := by
  have hM : MAX_CONTENT_SIZE = 65536 := rfl
  cases hfind : find_file st n with
  | none =>
    have hnl : ¬ live st n := (find_file_none_iff_not_live st n).1 hfind
    refine ⟨-ENOENT, st, by simp only [vfs_write, drop_one_path, hfind], ?_, ?_, ?_⟩
    · exact ⟨fun _ => hnl, fun _ => rfl⟩
    · intro hl; exact absurd hl hnl
    · intro i hi; cases hi
  | some i =>
    have hl : live st n := (live_iff_find_file st n).2 ⟨i, hfind⟩
    by_cases hbig : offset + (b.length : Int) > (MAX_CONTENT_SIZE : Int)
    · have hoff : to_size_t offset = offset.toNat := to_size_t_of_nonneg offset h0 h1
      have hsum : (offset.toNat + b.length) % 2 ^ 64 = offset.toNat + b.length :=
        Nat.mod_eq_of_lt (by omega)
      have hguard : offset.toNat + b.length > MAX_CONTENT_SIZE := by
        rw [hM] at hbig ⊢; omega
      refine ⟨-EFBIG, st, ?_, ?_, ?_, ?_⟩
      · simp only [vfs_write, drop_one_path, hfind, hoff, hsum, hguard, if_true]
      · constructor
        · intro h; simp [EFBIG, ENOENT] at h
        · intro h; exact absurd hl h
      · intro _; exact ⟨fun _ => hbig, fun _ => rfl⟩
      · intro j _ hle; omega
    · have hle : offset + (b.length : Int) ≤ (MAX_CONTENT_SIZE : Int) := by omega
      have hfind0 : find_file st ((SLASH :: n).drop 1) = some i := hfind
      refine ⟨_, _, vfs_write_in_range st (SLASH :: n) b offset i hfind0 h0 hle, ?_, ?_, ?_⟩
      · constructor
        · intro h; simp only [ENOENT] at h; omega
        · intro h; exact absurd hl h
      · intro _
        constructor
        · intro h; simp only [EFBIG] at h; omega
        · intro h; exact absurd h hbig
      · intro j hj _
        cases hj
        refine ⟨rfl, ?_, ?_⟩
        · simp only [update, if_true]
          omega
        · intro k hk
          have hin : offset.toNat ≤ offset.toNat + k ∧
              offset.toNat + k < offset.toNat + b.length := by omega
          simp only [update, if_true, hin, and_self, Nat.add_sub_cancel_left]
          simp [List.getD_eq_getElem?_getD, List.getElem?_eq_getElem hk]

theorem C8_write_contract_witness :
    (0 : Int) ≤ 3 ∧ (3 : Int) < 2 ^ 63 ∧ [104, 105].length < 2 ^ 63 ∧
      ∃ st1, vfs_write one_file [SLASH, 97] [104, 105] 2 3 = some (2, st1) ∧
        (st1.files 0).size = 5 ∧ (st1.files 0).content 3 = 104 ∧
        (st1.files 0).content 4 = 105 := by
  obtain ⟨r, st1, hw, _, _, hok⟩ :=
    C8_write_contract one_file [97] [104, 105] 3 (by decide) (by decide) (by decide)
  obtain ⟨hr, hsize, hbytes⟩ := hok 0 (by decide) (by decide)
  refine ⟨by decide, by decide, by decide, st1, ?_, ?_, hbytes 0 (by decide),
    hbytes 1 (by decide)⟩
  · have hw2 : vfs_write one_file [SLASH, 97] [104, 105] 2 3 = some (r, st1) := hw
    rw [hw2, hr]; rfl
  · have : ((st1.files 0).size : Int) = 5 := by rw [hsize]; rfl
    exact_mod_cast this

/-! ## C9: the read contract -/

/-- C9. Read contract: in every state whose live files have size at most MAX_CONTENT_SIZE, for
every name n, offset with 0 <= offset (an off_t) and requested length len (the capacity of a
buffer, so below 2^63), vfs_read("/n", len, offset) returns; it returns -ENOENT exactly when no
live file is named n; for the first live file named n it returns 0 and copies nothing when
offset >= size, and otherwise returns min(len, size - offset) and copies exactly the bytes
content[offset .. offset + min(len, size - offset)). -/
theorem C9_read_contract (st : fs_state) (n : CString) (len : Nat) (offset : Int)
    (hsizes : ∀ i, i < st.num_files → (st.files i).size ≤ MAX_CONTENT_SIZE)
    (h0 : 0 ≤ offset) (h1 : offset < 2 ^ 63) (hlen : len < 2 ^ 63) :
    ∃ r bytes, vfs_read st (SLASH :: n) len offset = some (r, bytes) ∧
      (r = -ENOENT ↔ ¬ live st n) ∧
      ∀ i, find_file st n = some i →
        (((st.files i).size : Int) ≤ offset → r = 0 ∧ bytes = []) ∧
        (offset < ((st.files i).size : Int) →
          r = ((min len ((st.files i).size - offset.toNat) : Nat) : Int) ∧
          bytes = (List.range (min len ((st.files i).size - offset.toNat))).map
            (fun k => (st.files i).content (offset.toNat + k))) := by
  cases hfind : find_file st n with
  | none =>
    have hnl : ¬ live st n := (find_file_none_iff_not_live st n).1 hfind
    refine ⟨-ENOENT, [], by simp only [vfs_read, drop_one_path, hfind], ?_, ?_⟩
    · exact ⟨fun _ => hnl, fun _ => rfl⟩
    · intro i hi; cases hi
  | some i =>
    have hl : live st n := (live_iff_find_file st n).2 ⟨i, hfind⟩
    have hfind0 : find_file st ((SLASH :: n).drop 1) = some i := hfind
    obtain ⟨hi, _, _⟩ := (find_file_some st n i).1 hfind
    by_cases hend : ((st.files i).size : Int) ≤ offset
    · refine ⟨0, [], vfs_read_at_end st (SLASH :: n) len offset i hfind0 h0 h1 hend, ?_, ?_⟩
      · constructor
        · intro h; simp [ENOENT] at h
        · intro h; exact absurd hl h
      · intro j hj
        cases hj
        exact ⟨fun _ => ⟨rfl, rfl⟩, fun h => by omega⟩
    · have hlt : offset < ((st.files i).size : Int) := by omega
      refine ⟨_, _, vfs_read_in_range st (SLASH :: n) len offset i hfind0 (hsizes i hi) h0 hlt
        hlen, ?_, ?_⟩
      · constructor
        · intro h; simp only [ENOENT] at h; omega
        · intro h; exact absurd hl h
      · intro j hj
        cases hj
        exact ⟨fun h => by omega, fun _ => ⟨rfl, rfl⟩⟩

theorem C9_read_contract_witness :
    (∀ i, i < diff_example.num_files → (diff_example.files i).size ≤ MAX_CONTENT_SIZE) ∧
    (0 : Int) ≤ 0 ∧ (0 : Int) < 2 ^ 63 ∧ (8 : Nat) < 2 ^ 63 ∧
      ∃ r bytes, vfs_read diff_example [SLASH, 97] 8 0 = some (r, bytes) ∧
        r = 1 ∧ bytes = [120] := by
  have hs : ∀ i, i < diff_example.num_files →
      (diff_example.files i).size ≤ MAX_CONTENT_SIZE :=
    fun i _ => reachable_sizes diff_calls diff_example diff_example_run i
  obtain ⟨r, bytes, hr, _, hfile⟩ :=
    C9_read_contract diff_example [97] 8 0 hs (by decide) (by decide) (by decide)
  obtain ⟨hr0, hb0⟩ := (hfile 0 (by decide)).2 (by decide)
  refine ⟨hs, by decide, by decide, by decide, r, bytes, hr, ?_, ?_⟩
  · rw [hr0]; rfl
  · rw [hb0]; rfl
/-! ## C10: the delete contract -/

/-- C10. Delete contract: for every state and name n, vfs_unlink("/n") returns -ENOENT exactly
when no live file is named n, and then leaves the state as it is; otherwise, with i the slot of
the first live file named n, it returns 0, num_files decreases by exactly 1, the slots below i keep
their files, each slot j from i to the new num_files - 1 holds the file of the old slot j + 1
(name, content and size), so the remaining live files keep their relative order without gaps, and
the snapshots are untouched. -/
theorem C10_unlink_contract (st : fs_state) (n : CString) :
    ((vfs_unlink st (SLASH :: n)).1 = -ENOENT ↔ ¬ live st n) ∧
    (¬ live st n → (vfs_unlink st (SLASH :: n)).2 = st) ∧
    ∀ i, find_file st n = some i →
      (vfs_unlink st (SLASH :: n)).1 = 0 ∧
      (vfs_unlink st (SLASH :: n)).2.num_files + 1 = st.num_files ∧
      (∀ j, j < i → (vfs_unlink st (SLASH :: n)).2.files j = st.files j) ∧
      (∀ j, i ≤ j → j < (vfs_unlink st (SLASH :: n)).2.num_files →
        (vfs_unlink st (SLASH :: n)).2.files j = st.files (j + 1)) ∧
      (vfs_unlink st (SLASH :: n)).2.snapshots = st.snapshots ∧
      (vfs_unlink st (SLASH :: n)).2.num_snapshots = st.num_snapshots := by
  cases hfind : find_file st n with
  | none =>
    have hnl : ¬ live st n := (find_file_none_iff_not_live st n).1 hfind
    have hres : vfs_unlink st (SLASH :: n) = (-ENOENT, st) := by
      unfold find_file at hfind
      simp only [vfs_unlink, drop_one_path, hfind]
    rw [hres]
    refine ⟨⟨fun _ => hnl, fun _ => rfl⟩, fun _ => rfl, ?_⟩
    intro i hi; cases hi
  | some i =>
    have hl : live st n := (live_iff_find_file st n).2 ⟨i, hfind⟩
    obtain ⟨hi, _, _⟩ := (find_file_some st n i).1 hfind
    have hres : vfs_unlink st (SLASH :: n) =
        (0, { st with files := shift_down st.files i st.num_files
                      num_files := st.num_files - 1 }) := by
      unfold find_file at hfind
      simp only [vfs_unlink, drop_one_path, hfind]
    rw [hres]
    refine ⟨⟨fun h => ?_, fun h => absurd hl h⟩, fun h => absurd hl h, ?_⟩
    · simp [ENOENT] at h
    · intro j hj
      cases hj
      refine ⟨rfl, ?_, ?_, ?_, rfl, rfl⟩
      · show st.num_files - 1 + 1 = st.num_files
        omega
      · intro j hj
        have hc : ¬ (i ≤ j ∧ j + 1 < st.num_files) := by omega
        show shift_down st.files i st.num_files j = st.files j
        rw [shift_down_spec _ _ _ hi, if_neg hc]
      · intro j hij hj
        have hj2 : j < st.num_files - 1 := hj
        have hc : i ≤ j ∧ j + 1 < st.num_files := by omega
        show shift_down st.files i st.num_files j = st.files (j + 1)
        rw [shift_down_spec _ _ _ hi, if_pos hc]

theorem C10_unlink_contract_witness :
    find_file diff_example [97] = some 0 ∧
    (vfs_unlink diff_example [SLASH, 97]).1 = 0 ∧
    (vfs_unlink diff_example [SLASH, 97]).2.num_files + 1 = diff_example.num_files ∧
    (vfs_unlink diff_example [SLASH, 97]).2.files 0 = diff_example.files 1 := by
  obtain ⟨_, _, h⟩ := C10_unlink_contract diff_example [97]
  obtain ⟨a, b, _, d, _, _⟩ := h 0 (by decide)
  exact ⟨by decide, a, b, d 0 (le_refl _) (by decide)⟩

/-! ## C15: snapshot ids -/

/-- C15. Snapshot ids and bound: in a state with num_snapshots = k < MAX_SNAPSHOTS, take_snapshot
stores a copy of the live file table (the file array and num_files) under id k, sets num_snapshots
to k + 1 and changes nothing else; after any later sequence of calls num_snapshots is above k, so
every later capture gets a larger id, and slot k still holds that copy, so the id is not reused. In
a state with num_snapshots = MAX_SNAPSHOTS, take_snapshot stores nothing and returns the state as
it is. -/
theorem C15_take_snapshot_ids (st : fs_state) :
    (st.num_snapshots < MAX_SNAPSHOTS →
      (take_snapshot st).num_snapshots = st.num_snapshots + 1 ∧
      ((take_snapshot st).snapshots st.num_snapshots).files = st.files ∧
      ((take_snapshot st).snapshots st.num_snapshots).num_files = st.num_files ∧
      (∀ s, s ≠ st.num_snapshots → (take_snapshot st).snapshots s = st.snapshots s) ∧
      (take_snapshot st).files = st.files ∧
      (take_snapshot st).num_files = st.num_files ∧
      ∀ calls st2, run (take_snapshot st) calls = some st2 →
        st.num_snapshots < st2.num_snapshots ∧
        (st2.snapshots st.num_snapshots).files = st.files ∧
        (st2.snapshots st.num_snapshots).num_files = st.num_files) ∧
    (st.num_snapshots = MAX_SNAPSHOTS → take_snapshot st = st) := by
  constructor
  · intro hroom
    have hnot : ¬ (st.num_snapshots ≥ MAX_SNAPSHOTS) := by omega
    have htake : take_snapshot st =
        { st with
          snapshots := update st.snapshots st.num_snapshots
            { files := st.files, num_files := st.num_files }
          num_snapshots := st.num_snapshots + 1 } := by
      simp only [take_snapshot, hnot, if_false]
    have hslot : (take_snapshot st).snapshots st.num_snapshots =
        { files := st.files, num_files := st.num_files } := by
      rw [htake]; simp only [update, if_true]
    refine ⟨by rw [htake], by rw [hslot], by rw [hslot], ?_, by rw [htake], by rw [htake], ?_⟩
    · intro s hs
      rw [htake]
      simp only [update, hs, if_false]
    · intro calls st2 hrun
      obtain ⟨hkeep, hmono⟩ := run_snapshots calls (take_snapshot st) st2 hrun
      have hnum : (take_snapshot st).num_snapshots = st.num_snapshots + 1 := by rw [htake]
      have hk := hkeep st.num_snapshots (by rw [hnum]; omega)
      rw [hnum] at hmono
      refine ⟨by omega, by rw [hk, hslot], by rw [hk, hslot]⟩
  · intro hfull
    unfold take_snapshot
    rw [if_pos (by omega)]

theorem C15_take_snapshot_ids_witness :
    one_file.num_snapshots < MAX_SNAPSHOTS ∧
    (take_snapshot one_file).num_snapshots = one_file.num_snapshots + 1 ∧
    ((take_snapshot one_file).snapshots 0).files = one_file.files ∧
    ((take_snapshot one_file).snapshots 0).num_files = one_file.num_files := by
  obtain ⟨h1, h2, h3, _⟩ := (C15_take_snapshot_ids one_file).1 (by decide)
  exact ⟨by decide, h1, h2, h3⟩

/-! ## C16: the bounds invariant -/

/-- C16. Bounds invariant: every sequence of mknod, write, unlink, take_snapshot and rollback
calls with well-formed arguments runs from the initial state to a state, and in every state such a
sequence of calls runs to, num_files <= MAX_FILES, num_snapshots <= MAX_SNAPSHOTS, every file slot
(live or not) and every file copy in every snapshot has size <= MAX_CONTENT_SIZE, and every
snapshot has num_files <= MAX_FILES. The counters are natural numbers, so they are never
negative. -/
theorem C16_bounds_invariant (calls : List call) :
    ((∀ c, c ∈ calls → c.wf) → ∃ st, run fs_init calls = some st) ∧
      ∀ st, run fs_init calls = some st →
        st.num_files ≤ MAX_FILES ∧ st.num_snapshots ≤ MAX_SNAPSHOTS ∧
        (∀ i, (st.files i).size ≤ MAX_CONTENT_SIZE) ∧
        ∀ s, (st.snapshots s).num_files ≤ MAX_FILES ∧
          ∀ i, ((st.snapshots s).files i).size ≤ MAX_CONTENT_SIZE := by
  refine ⟨run_defined calls fs_init, ?_⟩
  intro st hrun
  obtain ⟨h1, h2, ⟨h3, h4⟩, h5⟩ := run_bounds calls fs_init st hrun fs_init_bounds
  exact ⟨h1, h2, h3, fun s => ⟨h5 s, h4 s⟩⟩

theorem C16_bounds_invariant_witness :
    ∃ st, run fs_init mixed_calls = some st ∧
      st.num_files ≤ MAX_FILES ∧ st.num_snapshots ≤ MAX_SNAPSHOTS ∧
      (∀ i, (st.files i).size ≤ MAX_CONTENT_SIZE) ∧
      ∀ s, (st.snapshots s).num_files ≤ MAX_FILES ∧
        ∀ i, ((st.snapshots s).files i).size ≤ MAX_CONTENT_SIZE := by
  have h := C16_bounds_invariant mixed_calls
  obtain ⟨st, hrun⟩ := h.1 mixed_calls_wf
  exact ⟨st, hrun, h.2 st hrun⟩

/-! ## C19: the frame of a write -/

/-- C19. Write frame: when i is the slot of the first live file named n, 0 <= offset and
offset + len(b) <= MAX_CONTENT_SIZE, vfs_write("/n", b, len(b), offset) succeeds with len(b), and
in the state it returns the name of file i, its content bytes outside [offset, offset + len(b)),
every other file slot, num_files, all snapshots and num_snapshots are as before: only the bytes of
that range and the size of file i can have changed. -/
theorem C19_write_frame (st : fs_state) (n : CString) (b : List Byte) (offset : Int) (i : Nat)
    (hfind : find_file st n = some i) (h0 : 0 ≤ offset)
    (hle : offset + (b.length : Int) ≤ (MAX_CONTENT_SIZE : Int)) :
    ∃ st1, vfs_write st (SLASH :: n) b b.length offset = some ((b.length : Int), st1) ∧
      (st1.files i).name = (st.files i).name ∧
      (∀ k : Nat, (k : Int) < offset ∨ offset + (b.length : Int) ≤ (k : Int) →
        (st1.files i).content k = (st.files i).content k) ∧
      (∀ j, j ≠ i → st1.files j = st.files j) ∧
      st1.num_files = st.num_files ∧
      st1.snapshots = st.snapshots ∧
      st1.num_snapshots = st.num_snapshots := by
  have hfind0 : find_file st ((SLASH :: n).drop 1) = some i := hfind
  refine ⟨_, vfs_write_in_range st (SLASH :: n) b offset i hfind0 h0 hle, ?_, ?_, ?_, rfl, rfl,
    rfl⟩
  · simp only [update, if_true]
  · intro k hk
    have hout : ¬ (offset.toNat ≤ k ∧ k < offset.toNat + b.length) := by omega
    simp only [update, if_true, hout, if_false]
  · intro j hj
    simp only [update, hj, if_false]

theorem C19_write_frame_witness :
    find_file diff_example [97] = some 0 ∧ (0 : Int) ≤ 2 ∧
    (2 : Int) + (([104, 105] : List Byte).length : Int) ≤ (MAX_CONTENT_SIZE : Int) ∧
      ∃ st1, vfs_write diff_example [SLASH, 97] [104, 105] 2 2 = some (2, st1) ∧
        (st1.files 0).name = [97] ∧ (st1.files 0).content 0 = 120 ∧
        st1.files 1 = diff_example.files 1 ∧ st1.num_files = 2 ∧
        st1.snapshots = diff_example.snapshots := by
  obtain ⟨st1, hw, hname, hcont, hother, hnum, hsnap, _⟩ :=
    C19_write_frame diff_example [97] [104, 105] 2 0 (by decide) (by decide) (by decide)
  refine ⟨by decide, by decide, by decide, st1, hw, ?_, ?_, hother 1 (by decide), ?_, hsnap⟩
  · rw [hname]; rfl
  · rw [hcont 0 (Or.inl (by decide))]; rfl
  · rw [hnum]; rfl

/-! ## C20: snapshot after rollback -/

/-- C20. Snapshot after rollback reproduces the snapshot: for every valid id s in a state with
num_snapshots < MAX_SNAPSHOTS, rollback(s) returns 0 and the take_snapshot after it stores, under
the new id t = num_snapshots, a snapshot whose whole file array and num_files are those of
snapshot s, which is itself unchanged, so visualize_diff(s, t) prints no entry; and a second
rollback(s) right after the first returns 0 and leaves the state as the first left it. -/
theorem C20_rollback_then_snapshot (st : fs_state) (s : Nat) (hs : s < st.num_snapshots)
    (hroom : st.num_snapshots < MAX_SNAPSHOTS) :
    (rollback st (s : Int)).1 = 0 ∧
    (take_snapshot (rollback st (s : Int)).2).num_snapshots = st.num_snapshots + 1 ∧
    ((take_snapshot (rollback st (s : Int)).2).snapshots st.num_snapshots).files =
      (st.snapshots s).files ∧
    ((take_snapshot (rollback st (s : Int)).2).snapshots st.num_snapshots).num_files =
      (st.snapshots s).num_files ∧
    (take_snapshot (rollback st (s : Int)).2).snapshots s = st.snapshots s ∧
    visualize_diff (take_snapshot (rollback st (s : Int)).2) (s : Int)
      (st.num_snapshots : Int) = .report [] ∧
    rollback (rollback st (s : Int)).2 (s : Int) = (0, (rollback st (s : Int)).2) := by
  have hvalid : ¬ ((s : Int) < 0 ∨ (s : Int) ≥ (st.num_snapshots : Int)) := by omega
  have hroll : rollback st (s : Int) =
      (0, { st with files := (st.snapshots s).files, num_files := (st.snapshots s).num_files }) := by
    simp only [rollback, hvalid, if_false, Int.toNat_ofNat]
  have hnot : ¬ (st.num_snapshots ≥ MAX_SNAPSHOTS) := by omega
  have htake : take_snapshot (rollback st (s : Int)).2 =
      { files := (st.snapshots s).files
        num_files := (st.snapshots s).num_files
        snapshots := update st.snapshots st.num_snapshots
          { files := (st.snapshots s).files, num_files := (st.snapshots s).num_files }
        num_snapshots := st.num_snapshots + 1 } := by
    rw [hroll]
    simp only [take_snapshot, hnot, if_false]
  have hne : s ≠ st.num_snapshots := by omega
  have hold : (take_snapshot (rollback st (s : Int)).2).snapshots s = st.snapshots s := by
    rw [htake]; simp only [update, hne, if_false]
  have hnew : (take_snapshot (rollback st (s : Int)).2).snapshots st.num_snapshots =
      { files := (st.snapshots s).files, num_files := (st.snapshots s).num_files } := by
    rw [htake]; simp only [update, if_true]
  refine ⟨by rw [hroll], by rw [htake], by rw [hnew], by rw [hnew], hold, ?_, ?_⟩
  · have hnum : (take_snapshot (rollback st (s : Int)).2).num_snapshots =
        st.num_snapshots + 1 := by rw [htake]
    have hok : ¬ ((s : Int) < 0 ∨
        (s : Int) ≥ ((take_snapshot (rollback st (s : Int)).2).num_snapshots : Int) ∨
        (st.num_snapshots : Int) < 0 ∨
        (st.num_snapshots : Int) ≥
          ((take_snapshot (rollback st (s : Int)).2).num_snapshots : Int)) := by
      rw [hnum]; omega
    simp only [visualize_diff, hok, if_false, Int.toNat_ofNat]
    rw [diff_same_files _ _ (by rw [hold, hnew]) (by rw [hold, hnew])]
  · rw [hroll]
    simp only [rollback, hvalid, if_false, Int.toNat_ofNat]

theorem C20_rollback_then_snapshot_witness :
    (0 : Nat) < diff_example.num_snapshots ∧ diff_example.num_snapshots < MAX_SNAPSHOTS ∧
    (rollback diff_example 0).1 = 0 ∧
    visualize_diff (take_snapshot (rollback diff_example 0).2) 0 2 = .report [] ∧
    rollback (rollback diff_example 0).2 0 = (0, (rollback diff_example 0).2) := by
  obtain ⟨h1, _, _, _, _, h6, h7⟩ :=
    C20_rollback_then_snapshot diff_example 0 (by decide) (by decide)
  exact ⟨by decide, by decide, h1, h6, h7⟩

/-! ## C11: stored names of long names -/

set_option maxRecDepth 100000 in
/-- C11, at the failing input. From the initial state, vfs_mknod of two distinct names of 256
bytes that agree on their first 255 bytes returns 0 both times, and the two live files then have
the same stored name, the common 255 bytes: the lookup compares the stored names with the whole
new name, the store keeps only 255 bytes of it. -/
theorem C11_long_names_share_stored_name :
    long_name_b ≠ long_name_c ∧
    (vfs_mknod fs_init (SLASH :: long_name_b)).1 = 0 ∧
    (vfs_mknod (vfs_mknod fs_init (SLASH :: long_name_b)).2 (SLASH :: long_name_c)).1 = 0 ∧
    run fs_init [.mknod (SLASH :: long_name_b), .mknod (SLASH :: long_name_c)] =
      some two_long_names ∧
    two_long_names.num_files = 2 ∧
    (two_long_names.files 0).name = List.replicate 255 97 ∧
    (two_long_names.files 1).name = List.replicate 255 97 ∧
    ¬ names_unique two_long_names := by
  refine ⟨by decide, by decide, by decide, by rfl, by decide, by decide, by decide, ?_⟩
  intro h
  have h01 : (0 : Nat) = 1 := h 0 1 (by decide) (by decide) (by decide)
  exact absurd h01 (by decide)

/-! ## C12: the root path -/

/-- C12, at the failing input. In the initial state vfs_mknod("/") returns 0 and adds a live file
with the empty name; in the state it leaves, vfs_write("/", "x", 1, 0) returns 1 and stores the
byte in that file, and vfs_unlink("/") returns 0 and removes the file; vfs_getattr("/") still
answers for the root directory. -/
theorem C12_root_path_creates_empty_name :
    vfs_mknod fs_init [SLASH] = (0, root_created) ∧
    root_created.num_files = 1 ∧ (root_created.files 0).name = [] ∧
    (vfs_write root_created [SLASH] [120] 1 0).map Prod.fst = some 1 ∧
    (vfs_write root_created [SLASH] [120] 1 0).map
      (fun r => ((r.2.files 0).size, (r.2.files 0).content 0)) = some (1, 120) ∧
    (vfs_unlink root_created [SLASH]).1 = 0 ∧
    (vfs_unlink root_created [SLASH]).2.num_files = 0 ∧
    (vfs_getattr root_created [SLASH]).2.st_mode = S_IFDIR ||| 0o755 := by
  refine ⟨by rfl, by decide, by decide, by decide, by decide, by decide, by decide, by decide⟩

/-! ## C13: stale slots in the diff -/

/-- C13, at the failing input. After stale_calls the two snapshots have the same live file
sequence, the one file "a" of size 1 holding "x", yet visualize_diff(0, 1) prints an entry: the
loop runs over all MAX_FILES slots, and slot 1 of snapshot 1 still holds the name "b" of the
deleted file where snapshot 0 has the empty name. -/
theorem C13_stale_slot_is_reported :
    run fs_init stale_calls = some stale_example ∧
    (0 : Int) < stale_example.num_snapshots ∧ (1 : Int) < stale_example.num_snapshots ∧
    spec_live_files (stale_example.snapshots 0) = [([97], 1, [120])] ∧
    spec_live_files (stale_example.snapshots 1) = [([97], 1, [120])] ∧
    ((stale_example.snapshots 0).files 1).name = [] ∧
    ((stale_example.snapshots 1).files 1).name = [98] ∧
    visualize_diff stale_example 0 1 =
      .report [{ name := [], before := [], after := [] }] := by
  refine ⟨by rfl, by decide, by decide, by decide, by decide, by decide, by decide, by decide⟩

/-! ## C14: the contents the diff prints -/

/-- C14, at the failing input. In the scenario of the specification the file "a" of snapshot 1 has
size 3 and bytes [0, 3) "Bye", but visualize_diff(0, 1) prints the single entry a with before
"Hello" and after "Byelo": it prints the content array as a C string, and the write of "Bye" left
the bytes "lo" of "Hello" behind it. The rollback part holds: after rollback(0) a read of 5 bytes
of "/a" returns "Hello". -/
theorem C14_diff_prints_stale_bytes :
    run fs_init hello_calls = some hello_example ∧
    spec_lookup (hello_example.snapshots 0) [97] = some [72, 101, 108, 108, 111] ∧
    spec_lookup (hello_example.snapshots 1) [97] = some [66, 121, 101] ∧
    visualize_diff hello_example 0 1 =
      .report [{ name := [97], before := [72, 101, 108, 108, 111],
                 after := [66, 121, 101, 108, 111] }] ∧
    (rollback hello_example 0).1 = 0 ∧
    vfs_read (rollback hello_example 0).2 [SLASH, 97] 5 0 =
      some (5, [72, 101, 108, 108, 111]) := by
  refine ⟨by rfl, by decide, by decide, by decide, by decide, by decide⟩

/-! ## C18: the bounds test of a write -/

/-- C18, at the failing input. With the live file "a", offset -1 and size 1, vfs_write finds the
file and its test (offset + size) mod 2^64 > MAX_CONTENT_SIZE is false, since the sum is 0; so it
returns neither -ENOENT nor -EFBIG and goes on to the memcpy, whose destination starts one byte
before the content array: the call has no defined result. -/
theorem C18_negative_offset_passes_test :
    find_file one_file [97] = some 0 ∧
    (to_size_t (-1) + 1) % 2 ^ 64 = 0 ∧
    ¬ ((to_size_t (-1) + 1) % 2 ^ 64 > MAX_CONTENT_SIZE) ∧
    memcpy_in (one_file.files 0).content (-1) [120] 1 = none ∧
    vfs_write one_file [SLASH, 97] [120] 1 (-1) = none ∧
    ¬ ((0 : Int) ≤ -1) := by
  refine ⟨by decide, by decide, by decide, by rfl, by rfl, by decide⟩

end VersioningFS
